import Mathlib

/-!
Shallow embedding of `src/project/src/utils/pdfMarkdownParser.ts`.

Strings are modelled as `List Char` (`Str`), glyph measurement as an
abstract function `Measure : DocState → Str → ℚ` standing for jsPDF's
`getTextWidth` (which depends on the current font name, font style and
font size held by the mutable `doc` object).  The mutable `doc` is
modelled by explicit state passing of `DocState`; drawing (`doc.text`)
is modelled by an output list of `DrawCall`s recording the text, the
coordinates and the doc state at the moment of the call.
-/

set_option autoImplicit false

abbrev Str := List Char

/-- JavaScript whitespace (the characters relevant to `\s`, `trim` and
`split(/\s+/)` for this code base). -/
def isJsWs (c : Char) : Bool :=
  c = ' ' || c = '\t' || c = '\n' || c = '\r' || c = '\x0b' || c = '\x0c'

/-- The longest prefix of characters satisfying `p`. -/
def takeWhileStr (p : Char → Bool) : Str → Str
  | [] => []
  | c :: rest => if p c then c :: takeWhileStr p rest else []

/-- The remainder after the longest prefix of characters satisfying `p`. -/
def dropWhileStr (p : Char → Bool) : Str → Str
  | [] => []
  | c :: rest => if p c then dropWhileStr p rest else c :: rest

/-- `String.prototype.trim`. -/
def jsTrim (s : Str) : Str :=
  (dropWhileStr isJsWs (dropWhileStr isJsWs s).reverse).reverse

/-- `'ordered' | 'unordered'` of the `listType` field. -/
inductive ListKind
  | ordered
  | unordered
deriving DecidableEq, Repr

/-- interface TextStyle. -/
structure TextStyle where
  bold : Bool
  italic : Bool
  heading : Option Nat
  list : Bool
  listType : Option ListKind
  listLevel : Nat
  indentation : ℚ
deriving DecidableEq, Repr

/-- interface TextSegment. -/
structure TextSegment where
  text : Str
  style : TextStyle
deriving DecidableEq, Repr

/-- The `align` option values. -/
inductive AlignKind
  | left
  | center
  | right
  | justify
deriving DecidableEq, Repr

/-- interface PDFMarkdownOptions (`align?` is optional, hence `Option`). -/
structure PDFMarkdownOptions where
  maxWidth : ℚ
  align : Option AlignKind
  fontSize : ℚ
  lineHeight : ℚ
  font : Str
deriving DecidableEq, Repr

/-- The mutable font state of the jsPDF `doc` object. -/
structure DocState where
  fontName : Str
  fontStyle : Str
  fontSize : ℚ
deriving DecidableEq, Repr

/-- Abstract glyph measurement: `doc.getTextWidth` as a function of the
current doc font state and the measured text. -/
abbrev Measure := DocState → Str → ℚ

/-- One `doc.text(text, x, y)` call, recording the doc state at the call. -/
structure DrawCall where
  text : Str
  x : ℚ
  y : ℚ
  state : DocState
deriving DecidableEq, Repr

/-- The `fontStyle` string chosen by `applyStyle`. -/
def fontStyleOf (style : TextStyle) : Str :=
  if style.bold && style.italic then "bolditalic".toList
  else if style.bold then "bold".toList
  else if style.italic then "italic".toList
  else "normal".toList

/-- The `headingSizes` lookup table of `applyStyle`.  The source indexes a
6-entry object literal; levels outside 1..6 never reach it (the classifier
regex restricts the level), so the catch-all case is unreachable. -/
def headingSize (level : Nat) (base : ℚ) : ℚ :=
  match level with
  | 1 => base * 2
  | 2 => base * (3 / 2)
  | 3 => base * (117 / 100)
  | 4 => base * 1
  | 5 => base * (83 / 100)
  | 6 => base * (67 / 100)
  | _ => base

/-- function applyStyle(doc, style, baseFontSize, font).  `doc.setFont`
sets the font name and style; then `if (style.heading)` (JS truthiness:
`null` and `0` are falsy) selects the heading size, else the base size. -/
def applyStyle (st : DocState) (style : TextStyle) (baseFontSize : ℚ) (font : Str) : DocState :=
  let st := { st with fontName := font, fontStyle := fontStyleOf style }
  match style.heading with
  | some level =>
      if level ≠ 0 then { st with fontSize := headingSize level baseFontSize }
      else { st with fontSize := baseFontSize }
  | none => { st with fontSize := baseFontSize }

/-- The initial `currentStyle` of parseInlineMarkdown. -/
def defaultStyle : TextStyle :=
  { bold := false, italic := false, heading := none, list := false,
    listType := none, listLevel := 0, indentation := 0 }

/-- The scanning loop of parseInlineMarkdown: `text` is the unread input,
`currentText` the accumulated run, `currentStyle` the style in effect.
A bare `*`/`_` toggles italic, a doubled marker toggles bold; toggling
first flushes the accumulated run under the pre-toggle style. -/
def parseInlineLoop (text : Str) (currentText : Str) (currentStyle : TextStyle) :
    List TextSegment :=
  match text with
  | [] => if currentText ≠ [] then [⟨currentText, currentStyle⟩] else []
  | c :: rest =>
      if c = '*' || c = '_' then
        let isDouble := rest.head? = some c
        let flushed : List TextSegment :=
          if currentText ≠ [] then [⟨currentText, currentStyle⟩] else []
        if isDouble then
          flushed ++ parseInlineLoop rest.tail [] { currentStyle with bold := !currentStyle.bold }
        else
          flushed ++ parseInlineLoop rest [] { currentStyle with italic := !currentStyle.italic }
      else
        parseInlineLoop rest (currentText ++ [c]) currentStyle
termination_by text.length
decreasing_by
  · simp only [List.length_tail, List.length_cons]; omega
  · simp only [List.length_cons]; omega
  · simp only [List.length_cons]; omega

/-- function parseInlineMarkdown(text). -/
def parseInlineMarkdown (text : Str) : List TextSegment :=
  parseInlineLoop text [] defaultStyle

/-- `^(\s*(?:[-*]|\d+\.)\s+)` tested on the input with its leading
whitespace already removed: a `-`/`*` bullet or `digits.` followed by at
least one whitespace character. -/
def listMarkerMatch (rest : Str) : Bool :=
  match rest with
  | [] => false
  | c :: r =>
      if c = '-' || c = '*' then
        match r with
        | d :: _ => isJsWs d
        | [] => false
      else if c.isDigit then
        match dropWhileStr Char.isDigit rest with
        | '.' :: r2 =>
            match r2 with
            | d :: _ => isJsWs d
            | [] => false
        | _ => false
      else false

/-- function calculateIndentation(text): floor(leading-ws/2)*0.25, plus
0.25 for a list marker, else 0.75 if indented, else 0.25 if non-blank. -/
def calculateIndentation (text : Str) : ℚ :=
  let lead := (takeWhileStr isJsWs text).length
  let baseIndent : ℚ := ((lead / 2 : ℕ) : ℚ) * (1 / 4)
  if listMarkerMatch (dropWhileStr isJsWs text) then baseIndent + 1 / 4
  else if baseIndent > 0 then baseIndent + 3 / 4
  else if (jsTrim text).length > 0 then baseIndent + 1 / 4
  else baseIndent

/-- The character loop of splitWordIfNeeded: accumulate `currentPart`;
when `currentPart + char` would exceed `maxWidth * 0.95`, close the part
(hyphenated when it has ≥ 2 characters, plain when it has 1, or force the
single character out when it is empty).  The doc state is the one set by
`applyStyle` at the top of splitWordIfNeeded and does not change here. -/
def splitWordLoop (μ : Measure) (st : DocState) (style : TextStyle) (maxWidth : ℚ) :
    Str → List TextSegment → Str → List TextSegment
  | [], result, currentPart =>
      if currentPart.length > 0 then result ++ [⟨currentPart, style⟩] else result
  | ch :: rest, result, currentPart =>
      let testPart := currentPart ++ [ch]
      let testWidth := μ st testPart
      if testWidth > maxWidth * (95 / 100) then
        if currentPart.length ≥ 2 then
          splitWordLoop μ st style maxWidth rest (result ++ [⟨currentPart ++ ['-'], style⟩]) [ch]
        else if currentPart.length > 0 then
          splitWordLoop μ st style maxWidth rest (result ++ [⟨currentPart, style⟩]) [ch]
        else
          splitWordLoop μ st style maxWidth rest (result ++ [⟨[ch], style⟩]) []
      else
        splitWordLoop μ st style maxWidth rest result testPart

/-- function splitWordIfNeeded(word, style, doc, maxWidth).  Applies the
style (mutating the doc), returns the word whole if it fits, otherwise
splits character by character.  Returns the fragments and the doc state. -/
def splitWordIfNeeded (μ : Measure) (st : DocState) (word : Str) (style : TextStyle)
    (maxWidth : ℚ) : List TextSegment × DocState :=
  let st := applyStyle st style st.fontSize st.fontName
  if μ st word ≤ maxWidth then ([⟨word, style⟩], st)
  else (splitWordLoop μ st style maxWidth word [] [], st)

mutual

/-- The non-whitespace-field accumulator of `String.prototype.split(/\s+/)`
(`field` is kept reversed while scanning). -/
def splitWsGo : Str → Str → List Str
  | [], field => [field.reverse]
  | c :: rest, field =>
      if isJsWs c then field.reverse :: splitWsSkip rest
      else splitWsGo rest (c :: field)

/-- Skips the remainder of a whitespace run in `split(/\s+/)`. -/
def splitWsSkip : Str → List Str
  | [] => [[]]
  | c :: rest =>
      if isJsWs c then splitWsSkip rest
      else splitWsGo rest [c]

end

/-- `String.prototype.split(/\s+/)`: the maximal non-whitespace runs, with
an empty leading/trailing field when the string starts/ends with
whitespace (exactly the JS behaviour; empty fields are skipped by the
caller via `if (!word) return`). -/
def jsSplitWs (s : Str) : List Str :=
  splitWsGo s []

/-- The mutable accumulator of splitTextToLines: `lines` holds the
committed lines (commitLine only ever stores a non-empty current line,
and the trailing empty slot of the source's `lines` array is removed by
its final `filter`), plus the current line, its width, and the doc. -/
structure LineAcc where
  lines : List (List TextSegment)
  currentLineSegments : List TextSegment
  currentLineWidth : ℚ
  st : DocState

/-- function commitLine() of splitTextToLines. -/
def commitLine (acc : LineAcc) : LineAcc :=
  if acc.currentLineSegments.length > 0 then
    { acc with lines := acc.lines ++ [acc.currentLineSegments],
               currentLineSegments := [], currentLineWidth := 0 }
  else acc

/-- The `parts.forEach((part, index) => ...)` loop of splitTextToLines:
every fragment after the first is preceded by a commit, and
`currentLineWidth` is overwritten with the fragment's measured width
(the doc state is the one left by splitWordIfNeeded). -/
def partsLoop (μ : Measure) : List TextSegment → Nat → LineAcc → LineAcc
  | [], _, acc => acc
  | part :: rest, index, acc =>
      let acc := if index > 0 then commitLine acc else acc
      let acc := { acc with
        currentLineSegments := acc.currentLineSegments ++ [part],
        currentLineWidth := μ acc.st part.text }
      partsLoop μ rest (index + 1) acc

/-- The body of the `words.forEach` loop of splitTextToLines: skip empty
words, measure the word under its style, then either append it to the
current line (with a gap marker), start a new line with it, or force-split
it via splitWordIfNeeded. -/
def processWord (μ : Measure) (font : Str) (availableWidth spaceWidth : ℚ)
    (style : TextStyle) (acc : LineAcc) (word : Str) : LineAcc :=
  if word = [] then acc
  else
    let st := applyStyle acc.st style acc.st.fontSize font
    let wordWidth := μ st word
    let acc := { acc with st := st }
    let totalWidth := acc.currentLineWidth +
      (if acc.currentLineSegments.length > 0 then spaceWidth else 0) + wordWidth
    if totalWidth ≤ availableWidth then
      let acc :=
        if acc.currentLineSegments.length > 0 then
          { acc with
            currentLineSegments := acc.currentLineSegments ++ [⟨[' '], style⟩],
            currentLineWidth := acc.currentLineWidth + spaceWidth }
        else acc
      { acc with
        currentLineSegments := acc.currentLineSegments ++ [⟨word, style⟩],
        currentLineWidth := acc.currentLineWidth + wordWidth }
    else if wordWidth ≤ availableWidth then
      let acc := commitLine acc
      { acc with currentLineSegments := [⟨word, style⟩], currentLineWidth := wordWidth }
    else
      let acc := if acc.currentLineSegments.length > 0 then commitLine acc else acc
      let p := splitWordIfNeeded μ acc.st word style availableWidth
      let acc := { acc with st := p.2 }
      partsLoop μ p.1 0 acc

/-- The re-measuring loop of the post-pass of splitTextToLines
(`applyStyle` with the current font size and the `font` parameter before
each measurement). -/
def verifyMeasureLoop (μ : Measure) (font : Str) :
    List TextSegment → DocState → ℚ → ℚ × DocState
  | [], st, w => (w, st)
  | seg :: rest, st, w =>
      let st := applyStyle st seg.style st.fontSize font
      verifyMeasureLoop μ font rest st (w + μ st seg.text)

/-- The `parts.forEach` loop inside the rebuild of an over-wide line:
each fragment is re-admitted only while it fits the remaining budget
(measured in the doc state left by splitWordIfNeeded). -/
def rebuildParts (μ : Measure) (availableWidth : ℚ) (st : DocState) :
    List TextSegment → List TextSegment × ℚ → List TextSegment × ℚ
  | [], q => q
  | part :: rest, q =>
      rebuildParts μ availableWidth st rest
        (if q.2 + μ st part.text ≤ availableWidth then
          (q.1 ++ [part], q.2 + μ st part.text)
        else q)

/-- The rebuild of an over-wide line in the post-pass of splitTextToLines:
gap markers are re-admitted while the (function-entry) space width fits,
other segments are re-split against the remaining budget and each fragment
is admitted only if it fits; anything else is dropped. -/
def rebuildLoop (μ : Measure) (availableWidth spaceWidth : ℚ) :
    List TextSegment → List TextSegment → ℚ → DocState → List TextSegment × ℚ × DocState
  | [], newLine, currentWidth, st => (newLine, currentWidth, st)
  | seg :: rest, newLine, currentWidth, st =>
      if seg.text = [' '] then
        if currentWidth + spaceWidth ≤ availableWidth then
          rebuildLoop μ availableWidth spaceWidth rest
            (newLine ++ [seg]) (currentWidth + spaceWidth) st
        else
          rebuildLoop μ availableWidth spaceWidth rest newLine currentWidth st
      else
        let p := splitWordIfNeeded μ st seg.text seg.style (availableWidth - currentWidth)
        let r := rebuildParts μ availableWidth p.2 p.1 (newLine, currentWidth)
        rebuildLoop μ availableWidth spaceWidth rest r.1 r.2 p.2

/-- The post-pass `.map` of splitTextToLines: re-measure each committed
line and rebuild it when it is over-wide. -/
def verifyLines (μ : Measure) (font : Str) (availableWidth spaceWidth : ℚ) :
    List (List TextSegment) → DocState → List (List TextSegment) →
    List (List TextSegment) × DocState
  | [], st, out => (out, st)
  | line :: rest, st, out =>
      let m := verifyMeasureLoop μ font line st 0
      let lineWidth := m.1
      let st := m.2
      if lineWidth > availableWidth then
        let rb := rebuildLoop μ availableWidth spaceWidth line [] 0 st
        verifyLines μ font availableWidth spaceWidth rest rb.2.2 (out ++ [rb.1])
      else
        verifyLines μ font availableWidth spaceWidth rest st (out ++ [line])

/-- The `words.forEach` loop of splitTextToLines over the words of one
segment. -/
def wordsLoop (μ : Measure) (font : Str) (availableWidth spaceWidth : ℚ)
    (style : TextStyle) : List Str → LineAcc → LineAcc
  | [], acc => acc
  | word :: ws, acc =>
      wordsLoop μ font availableWidth spaceWidth style ws
        (processWord μ font availableWidth spaceWidth style acc word)

/-- The `segments.forEach` loop of splitTextToLines: split each segment's
text on whitespace and feed the words to the packer. -/
def segmentsLoop (μ : Measure) (font : Str) (availableWidth spaceWidth : ℚ) :
    List TextSegment → LineAcc → LineAcc
  | [], acc => acc
  | segment :: rest, acc =>
      segmentsLoop μ font availableWidth spaceWidth rest
        (wordsLoop μ font availableWidth spaceWidth segment.style (jsSplitWs segment.text) acc)

/-- function splitTextToLines(doc, segments, maxWidth, baseIndentation,
font): greedy word packing into lines of at most
`availableWidth = maxWidth - baseIndentation * fontSize`, followed by the
verification post-pass.  Returns the lines and the doc state. -/
def splitTextToLines (μ : Measure) (st : DocState) (segments : List TextSegment)
    (maxWidth : ℚ) (baseIndentation : ℚ) (font : Str) :
    List (List TextSegment) × DocState :=
  let indentationWidth := baseIndentation * st.fontSize
  let availableWidth := maxWidth - indentationWidth
  let spaceWidth := μ st [' ']
  let acc := segmentsLoop μ font availableWidth spaceWidth segments ⟨[], [], 0, st⟩
  let acc := if acc.currentLineSegments.length > 0 then commitLine acc else acc
  verifyLines μ font availableWidth spaceWidth acc.lines acc.st []

/-- The fallback (left-aligned) loop of renderJustifiedLine: draw each
segment and advance by the width of its text plus a trailing space
(no extra space after a gap-marker segment). -/
def fallbackLoop (μ : Measure) (y : ℚ) :
    List TextSegment → DocState → ℚ → List DrawCall → DocState × ℚ × List DrawCall
  | [], st, currentX, log => (st, currentX, log)
  | seg :: rest, st, currentX, log =>
      let st := applyStyle st seg.style st.fontSize st.fontName
      let log := log ++ [⟨seg.text, currentX, y, st⟩]
      let currentX := currentX + μ st (seg.text ++ (if seg.text = [' '] then [] else [' ']))
      fallbackLoop μ y rest st currentX log

/-- The `totalTextWidth` loop of renderJustifiedLine (styles each segment
with the current size and current font name, and sums all segment widths,
gap markers included). -/
def justifiedMeasureLoop (μ : Measure) :
    List TextSegment → DocState → ℚ → ℚ × DocState
  | [], st, total => (total, st)
  | seg :: rest, st, total =>
      let st := applyStyle st seg.style st.fontSize st.fontName
      justifiedMeasureLoop μ rest st (total + μ st seg.text)

/-- The drawing loop of the justified branch of renderJustifiedLine:
draw each segment at the cursor, advance by its width, and after a
gap-marker segment that is not the last segment also advance by
`extraSpacePerGap`. -/
def justifiedDrawLoop (μ : Measure) (extraSpacePerGap y : ℚ) (n : Nat) :
    List TextSegment → Nat → DocState → ℚ → List DrawCall → DocState × ℚ × List DrawCall
  | [], _, st, currentX, log => (st, currentX, log)
  | seg :: rest, index, st, currentX, log =>
      let st := applyStyle st seg.style st.fontSize st.fontName
      let log := log ++ [⟨seg.text, currentX, y, st⟩]
      let segmentWidth := μ st seg.text
      let currentX := currentX + segmentWidth
      let currentX :=
        if seg.text = [' '] && index < n - 1 then currentX + extraSpacePerGap
        else currentX
      justifiedDrawLoop μ extraSpacePerGap y n rest (index + 1) st currentX log

/-- function renderJustifiedLine(doc, segments, x, y, maxWidth,
isLastLine). -/
def renderJustifiedLine (μ : Measure) (st : DocState) (segments : List TextSegment)
    (x y maxWidth : ℚ) (isLastLine : Bool) : DocState × List DrawCall :=
  if isLastLine || segments.length ≤ 1 then
    let r := fallbackLoop μ y segments st x []
    (r.1, r.2.2)
  else
    let numberOfSpaces := (segments.filter (fun s => s.text = [' '])).length
    let m := justifiedMeasureLoop μ segments st 0
    let totalTextWidth := m.1
    let st := m.2
    let remainingSpace := max 0 (maxWidth - totalTextWidth)
    let extraSpacePerGap : ℚ :=
      if numberOfSpaces > 0 then remainingSpace / numberOfSpaces else 0
    let r := justifiedDrawLoop μ extraSpacePerGap y segments.length segments 0 st x []
    (r.1, r.2.2)

/-- The `totalWidth` measuring loop of the non-justify alignment branch of
parsePDFMarkdown (`applyStyle` with `options.fontSize` and `options.font`
before each measurement). -/
def measureSegments (μ : Measure) (baseFontSize : ℚ) (font : Str) :
    List TextSegment → DocState → ℚ → ℚ × DocState
  | [], st, total => (total, st)
  | seg :: rest, st, total =>
      let st := applyStyle st seg.style baseFontSize font
      measureSegments μ baseFontSize font rest st (total + μ st seg.text)

/-- The drawing loop of the non-justify alignment branch of
parsePDFMarkdown: style, draw at `xOffset`, advance by the segment
width. -/
def drawSegments (μ : Measure) (baseFontSize : ℚ) (font : Str) (y : ℚ) :
    List TextSegment → DocState → ℚ → List DrawCall → DocState × ℚ × List DrawCall
  | [], st, xOffset, log => (st, xOffset, log)
  | seg :: rest, st, xOffset, log =>
      let st := applyStyle st seg.style baseFontSize font
      let log := log ++ [⟨seg.text, xOffset, y, st⟩]
      drawSegments μ baseFontSize font y rest st (xOffset + μ st seg.text) log

/-- One produced line rendered by parsePDFMarkdown: the justify branch
delegates to renderJustifiedLine with the block's x offset and reduced
width; otherwise the line is measured and drawn left/center/right.
`xStart`, `justifyWidth`, `centerX` and `rightX` are the block-kind
specific offset expressions of the three (textually duplicated) rendering
blocks of the source. -/
def renderLine (μ : Measure) (options : PDFMarkdownOptions) (xStart justifyWidth : ℚ)
    (centerX rightX : ℚ → ℚ) (st : DocState) (currentY : ℚ)
    (lineSegments : List TextSegment) (isLast : Bool) : DocState × List DrawCall :=
  if options.align = some AlignKind.justify then
    renderJustifiedLine μ st lineSegments xStart currentY justifyWidth isLast
  else
    let m := measureSegments μ options.fontSize options.font lineSegments st 0
    let totalWidth := m.1
    let st := m.2
    let xOffset :=
      if options.align = some AlignKind.center then centerX totalWidth
      else if options.align = some AlignKind.right then rightX totalWidth
      else xStart
    let d := drawSegments μ options.fontSize options.font currentY lineSegments st xOffset []
    (d.1, d.2.2)

/-- The `lines.forEach((lineSegments, lineIndex) => ...)` loop shared by
the rendering blocks of parsePDFMarkdown: a sub-line is skipped once
`currentY > maxY` (the source's forEach `return` is a continue), and
`currentY` advances by `lineHeight` after every sub-line except the
last (`n` is the number of produced lines). -/
def linesLoop (μ : Measure) (options : PDFMarkdownOptions) (xStart justifyWidth : ℚ)
    (centerX rightX : ℚ → ℚ) (maxY lineHeight : ℚ) :
    List (List TextSegment) → Nat → Nat → DocState → ℚ → List DrawCall →
    DocState × ℚ × List DrawCall
  | [], _, _, st, currentY, log => (st, currentY, log)
  | lineSegments :: rest, lineIndex, n, st, currentY, log =>
      if currentY > maxY then
        linesLoop μ options xStart justifyWidth centerX rightX maxY lineHeight
          rest (lineIndex + 1) n st currentY log
      else
        let r := renderLine μ options xStart justifyWidth centerX rightX st currentY
          lineSegments (lineIndex = n - 1)
        let currentY := if lineIndex < n - 1 then currentY + lineHeight else currentY
        linesLoop μ options xStart justifyWidth centerX rightX maxY lineHeight
          rest (lineIndex + 1) n r.1 currentY (log ++ r.2)

/-- `line.match(/^(#{1,6})\s+(.+)$/)` on the (already trimmed) line:
1..6 `#` characters, at least one whitespace, then the non-empty content
with its leading whitespace consumed by the greedy `\s+`. -/
def headerMatch (line : Str) : Option (Nat × Str) :=
  let hashes := (takeWhileStr (fun c => c = '#') line).length
  let after := dropWhileStr (fun c => c = '#') line
  if 1 ≤ hashes && hashes ≤ 6 then
    match after with
    | c :: _ =>
        if isJsWs c then
          let content := dropWhileStr isJsWs after
          if content ≠ [] then some (hashes, content) else none
        else none
    | [] => none
  else none

/-- `line.match(/^(\d+)\.\s+(.+)$/)` on the trimmed line: the digit run
(returned as text, cosmetic only), a dot, whitespace, then the content. -/
def orderedListMatch (line : Str) : Option (Str × Str) :=
  let digits := takeWhileStr Char.isDigit line
  let after := dropWhileStr Char.isDigit line
  if digits.length ≥ 1 then
    match after with
    | '.' :: rest =>
        match rest with
        | c :: _ =>
            if isJsWs c then
              let content := dropWhileStr isJsWs rest
              if content ≠ [] then some (digits, content) else none
            else none
        | [] => none
    | _ => none
  else none

/-- `line.match(/^[-*]\s+(.+)$/)` on the trimmed line. -/
def unorderedListMatch (line : Str) : Option Str :=
  match line with
  | [] => none
  | c :: rest =>
      if c = '-' || c = '*' then
        match rest with
        | d :: _ =>
            if isJsWs d then
              let content := dropWhileStr isJsWs rest
              if content ≠ [] then some content else none
            else none
        | [] => none
      else none

/-- `text.replace(/---/g, '\n')` (left-to-right, non-overlapping). -/
def replaceDashes : Str → Str
  | '-' :: '-' :: '-' :: rest => '\n' :: replaceDashes rest
  | c :: rest => c :: replaceDashes rest
  | [] => []

/-- The scanner behind `text.replace(/\n{2,}/g, '\n')`: when `inRun` is
true the previous character was a newline already emitted for the current
run, so further newlines of the run are dropped.  A maximal run of
newlines is thus emitted as a single newline, which on runs of length ≥ 2
is exactly the regex replacement (length-1 runs are untouched either
way). -/
def collapseNLGo : Bool → Str → Str
  | _, [] => []
  | inRun, c :: rest =>
      if c = '\n' then
        if inRun then collapseNLGo true rest
        else '\n' :: collapseNLGo true rest
      else c :: collapseNLGo false rest

/-- `text.replace(/\n{2,}/g, '\n')`: collapse every run of two or more
newlines to a single newline. -/
def collapseNewlines (s : Str) : Str :=
  collapseNLGo false s

/-- `text.split('\n')` (empty fields preserved). -/
def splitOnChar (sep : Char) : Str → List Str
  | [] => [[]]
  | c :: rest =>
      if c = sep then [] :: splitOnChar sep rest
      else
        match splitOnChar sep rest with
        | f :: fs => (c :: f) :: fs
        | [] => [[c]]

/-- The `for` loop over `textLines` in parsePDFMarkdown: classify each
trimmed line as blank / heading / ordered-list item / unordered-list item
/ paragraph, advance `currentY` per block and sub-line, stop (returning
`currentY`) as soon as the next line would cross `maxY`. -/
def processLines (μ : Measure) (options : PDFMarkdownOptions) (x maxY lineHeight : ℚ) :
    List Str → DocState → ℚ → List DrawCall → ℚ × DocState × List DrawCall
  | [], st, currentY, log => (currentY, st, log)
  | rawLine :: rest, st, currentY, log =>
      let baseIndentation := calculateIndentation rawLine
      let line := jsTrim rawLine
      if line = [] then
        processLines μ options x maxY lineHeight rest st (currentY + lineHeight) log
      else if currentY + lineHeight > maxY then (currentY, st, log)
      else
        match headerMatch line with
        | some (level, content) =>
            let currentY := currentY + lineHeight
            if currentY > maxY then (currentY, st, log)
            else
              let st := { st with fontSize := options.fontSize * (5 / 2 - (level : ℚ) * (3 / 10)) }
              let st := { st with fontName := options.font, fontStyle := "bold".toList }
              let segments := parseInlineMarkdown content
              let sp := splitTextToLines μ st segments options.maxWidth baseIndentation options.font
              let r := linesLoop μ options (x + baseIndentation * options.fontSize)
                (options.maxWidth - baseIndentation * options.fontSize)
                (fun tw => x + (options.maxWidth - tw) / 2)
                (fun tw => x + options.maxWidth - tw)
                maxY lineHeight sp.1 0 sp.1.length sp.2 currentY log
              let st := { r.1 with fontSize := options.fontSize,
                                   fontName := options.font, fontStyle := "normal".toList }
              processLines μ options x maxY lineHeight rest st r.2.1 r.2.2
        | none =>
        match orderedListMatch line with
        | some (listNumber, content) =>
            let listIndent := baseIndentation * options.fontSize
            let currentY := currentY + lineHeight
            if currentY > maxY then (currentY, st, log)
            else
              let log := log ++ [⟨listNumber ++ ['.'], x + listIndent, currentY, st⟩]
              let segments := parseInlineMarkdown content
              let sp := splitTextToLines μ st segments
                (options.maxWidth - (listIndent + 5)) baseIndentation options.font
              let r := linesLoop μ options (x + listIndent + 5)
                (options.maxWidth - (listIndent + 5))
                (fun tw => x + listIndent + 5 + (options.maxWidth - listIndent - 5 - tw) / 2)
                (fun tw => x + options.maxWidth - tw)
                maxY lineHeight sp.1 0 sp.1.length sp.2 currentY log
              processLines μ options x maxY lineHeight rest r.1 r.2.1 r.2.2
        | none =>
        match unorderedListMatch line with
        | some content =>
            let listIndent := baseIndentation * options.fontSize
            let currentY := currentY + lineHeight
            if currentY > maxY then (currentY, st, log)
            else
              let log := log ++ [⟨['•'], x + listIndent, currentY, st⟩]
              let segments := parseInlineMarkdown content
              let sp := splitTextToLines μ st segments
                (options.maxWidth - (listIndent + 5)) baseIndentation options.font
              let r := linesLoop μ options (x + listIndent + 5)
                (options.maxWidth - (listIndent + 5))
                (fun tw => x + listIndent + 5 + (options.maxWidth - listIndent - 5 - tw) / 2)
                (fun tw => x + options.maxWidth - tw)
                maxY lineHeight sp.1 0 sp.1.length sp.2 currentY log
              processLines μ options x maxY lineHeight rest r.1 r.2.1 r.2.2
        | none =>
            let currentY := currentY + lineHeight
            if currentY > maxY then (currentY, st, log)
            else
              let segments := parseInlineMarkdown line
              let sp := splitTextToLines μ st segments options.maxWidth baseIndentation options.font
              let r := linesLoop μ options (x + baseIndentation * options.fontSize)
                (options.maxWidth - baseIndentation * options.fontSize)
                (fun tw => x + (options.maxWidth - tw) / 2)
                (fun tw => x + options.maxWidth - tw)
                maxY lineHeight sp.1 0 sp.1.length sp.2 currentY log
              processLines μ options x maxY lineHeight rest r.1 r.2.1 r.2.2

/-- function parsePDFMarkdown(doc, text, x, y, options).  Returns the
final `currentY`, the final doc state and the list of draw calls.
`pageHeight` stands for `doc.internal.pageSize.getHeight()`. -/
def parsePDFMarkdown (μ : Measure) (pageHeight : ℚ) (st : DocState) (text : Str)
    (x y : ℚ) (options : PDFMarkdownOptions) : ℚ × DocState × List DrawCall :=
  if text = [] then (y, st, [])
  else
    let text := collapseNewlines (replaceDashes text)
    let st := { st with fontName := options.font, fontStyle := "normal".toList,
                        fontSize := options.fontSize }
    let lineHeight := options.fontSize * (352778 / 1000000) * options.lineHeight
    let textLines := splitOnChar '\n' text
    let maxY := pageHeight - 20
    processLines μ options x maxY lineHeight textLines st y []

/-! ### Specification-side definitions used by the claims -/

/-- The doc state that `applyStyle` produces for a heading-free style when
the base size is `fontSize` and the font is `font`: measuring and drawing
a segment always happens in this state. -/
def styleState (font : Str) (fontSize : ℚ) (style : TextStyle) : DocState :=
  ⟨font, fontStyleOf style, fontSize⟩

/-- The width a line segment contributes in the width-bound claim: gap
markers count at the line breaker's `spaceWidth`, every other segment at
its measured width under its own style. -/
def segMeasure (μ : Measure) (font : Str) (fontSize spaceWidth : ℚ)
    (seg : TextSegment) : ℚ :=
  if seg.text = [' '] then spaceWidth
  else μ (styleState font fontSize seg.style) seg.text

/-- The total claimed width of a produced line. -/
def lineMeasure (μ : Measure) (font : Str) (fontSize spaceWidth : ℚ)
    (line : List TextSegment) : ℚ :=
  (line.map (segMeasure μ font fontSize spaceWidth)).sum

/-- The fragments/blocks correspondence of the word-split content
preservation claim: the blocks partition the word in order, each fragment
equals its block either unchanged or with one `-` appended, the appended
hyphen occurring only on non-final blocks of length ≥ 2. -/
def fragsOK : List TextSegment → List Str → Prop
  | [], [] => True
  | [f], [b] => f.text = b
  | f :: f2 :: fs, b :: b2 :: bs =>
      (f.text = b ∨ (f.text = b ++ ['-'] ∧ 2 ≤ b.length)) ∧ fragsOK (f2 :: fs) (b2 :: bs)
  | _, _ => False

/-- The draw-call sequence described by the justify gap-distribution
claim: each segment drawn at the cursor under its style's state, the
cursor advancing by the segment's natural width, plus `extra` after a
gap marker that is not the last segment. -/
def justifiedGo (μ : Measure) (font : Str) (fontSize : ℚ) (extra y : ℚ) :
    List TextSegment → ℚ → List DrawCall
  | [], _ => []
  | seg :: rest, cx =>
      let cst := styleState font fontSize seg.style
      ⟨seg.text, cx, y, cst⟩ ::
        justifiedGo μ font fontSize extra y rest
          (cx + μ cst seg.text + (if seg.text = [' '] && !rest.isEmpty then extra else 0))

/-- The gap-distribution computation as the source performs it:
`totalTextWidth` sums the widths of ALL segments (gap markers included at
their natural widths). -/
def justifiedModelDraws (μ : Measure) (st : DocState) (segments : List TextSegment)
    (x y maxWidth : ℚ) : List DrawCall :=
  let w := fun seg => μ (styleState st.fontName st.fontSize seg.style) seg.text
  let totalTextWidth := (segments.map w).sum
  let numberOfGaps := (segments.filter (fun s => s.text = [' '])).length
  let extra : ℚ :=
    if numberOfGaps > 0 then max 0 (maxWidth - totalTextWidth) / numberOfGaps else 0
  justifiedGo μ st.fontName st.fontSize extra y segments x

/-- The gap-distribution computation as the claim words it: `totalTextWidth`
sums the widths of the non-gap segments only. -/
def justifiedClaimDraws (μ : Measure) (st : DocState) (segments : List TextSegment)
    (x y maxWidth : ℚ) : List DrawCall :=
  let w := fun seg => μ (styleState st.fontName st.fontSize seg.style) seg.text
  let totalTextWidth := ((segments.filter (fun s => ¬(s.text = [' ']))).map w).sum
  let numberOfGaps := (segments.filter (fun s => s.text = [' '])).length
  let extra : ℚ :=
    if numberOfGaps > 0 then max 0 (maxWidth - totalTextWidth) / numberOfGaps else 0
  justifiedGo μ st.fontName st.fontSize extra y segments x

/-! ### Concrete fixtures for counterexamples and witnesses -/

/-- A glyph measurement assigning every character width 10 in every font
state. -/
def mu10 : Measure := fun _ s => 10 * s.length

/-- A doc initially in font `F`, style `normal`, size 10. -/
def st0 : DocState := ⟨"F".toList, "normal".toList, 10⟩

/-- Options with effective line height exactly 10 at font size 10:
`10 * 0.352778 * (1000000/352778) = 10`. -/
def opts8 : PDFMarkdownOptions :=
  { maxWidth := 100, align := none, fontSize := 10,
    lineHeight := 1000000 / 352778, font := "F".toList }

/-- Left-aligned options at font size 10. -/
def optsL : PDFMarkdownOptions :=
  { maxWidth := 100, align := some AlignKind.left, fontSize := 10,
    lineHeight := 1, font := "F".toList }

/-- A three-segment line `a`, gap, `b` in the default style. -/
def segs3 : List TextSegment :=
  [⟨"a".toList, defaultStyle⟩, ⟨" ".toList, defaultStyle⟩, ⟨"b".toList, defaultStyle⟩]

/-- Every segment stored in the line builder satisfies `Q` on its style. -/
def accStylesOK (Q : TextStyle → Prop) (acc : LineAcc) : Prop :=
  (∀ L ∈ acc.lines, ∀ s ∈ L, Q s.style) ∧ (∀ s ∈ acc.currentLineSegments, Q s.style)

/-- A well-formed stored segment: tokenizer-produced (heading-free) style,
and its text is either the gap marker or whitespace-free (a word or a
forced-split fragment). -/
def segOK (seg : TextSegment) : Prop :=
  seg.style.heading = none ∧
    (seg.text = [' '] ∨ ∀ c ∈ seg.text, isJsWs c = false)

/-- A committed line of the builder: non-empty, well-formed segments, and
either within the width budget or a single non-gap segment (a word or
forced fragment wider than the budget, to be handled by the verification
pass). -/
def lineOK (μ : Measure) (font : Str) (fontSize spaceWidth availableWidth : ℚ)
    (L : List TextSegment) : Prop :=
  L ≠ [] ∧ (∀ seg ∈ L, segOK seg) ∧
    (lineMeasure μ font fontSize spaceWidth L ≤ availableWidth ∨
      ∃ seg, L = [seg] ∧ seg.text ≠ [' '])

/-- The invariant of the greedy packing loop of splitTextToLines. -/
def accInv (μ : Measure) (font : Str) (fontSize spaceWidth availableWidth : ℚ)
    (acc : LineAcc) : Prop :=
  acc.st.fontSize = fontSize ∧
  acc.currentLineWidth =
    lineMeasure μ font fontSize spaceWidth acc.currentLineSegments ∧
  (∀ seg ∈ acc.currentLineSegments, segOK seg) ∧
  (lineMeasure μ font fontSize spaceWidth acc.currentLineSegments ≤ availableWidth ∨
    ∃ seg, acc.currentLineSegments = [seg] ∧ seg.text ≠ [' ']) ∧
  ∀ L ∈ acc.lines, lineOK μ font fontSize spaceWidth availableWidth L

/-! ### Theorems -/

/-- Claim C9: for every doc, x, y and options, parsePDFMarkdown called
with empty input text returns the starting y unchanged and performs no
drawing calls. -/
theorem parsePDFMarkdown_empty_identity (μ : Measure) (pageHeight : ℚ) (st : DocState)
    (x y : ℚ) (options : PDFMarkdownOptions) :
    (parsePDFMarkdown μ pageHeight st [] x y options).1 = y ∧
    (parsePDFMarkdown μ pageHeight st [] x y options).2.2 = [] := by
  constructor <;> rfl

/-- Claim C7, counterexample: `"- item"` and `"item"` (both with zero
leading whitespace) get the same `baseIndentation` 0.25, so the computed
list indentation is not strictly greater than the paragraph one. -/
theorem calculateIndentation_list_not_greater :
    calculateIndentation "- item".toList = 1 / 4 ∧
    calculateIndentation "item".toList = 1 / 4 ∧
    ¬ calculateIndentation "item".toList < calculateIndentation "- item".toList := by
  refine ⟨?_, ?_, ?_⟩ <;>
    simp [calculateIndentation, listMarkerMatch, takeWhileStr, dropWhileStr, isJsWs, jsTrim]

/-- Claim C7, amended: the list marker and the plain non-indented
paragraph both add the same fixed 0.25 to the floor(lead/2)*0.25 base, so
`"- item"` and `"item"` at zero leading whitespace get EQUAL
`baseIndentation` (the extra visual list indent comes from the fixed
`+ 5` x-offset of the list rendering blocks, not from
calculateIndentation). -/
theorem calculateIndentation_list_eq_paragraph :
    calculateIndentation "- item".toList = calculateIndentation "item".toList := by
  simp [calculateIndentation, listMarkerMatch, takeWhileStr, dropWhileStr, isJsWs, jsTrim]

/-- Claim C3: the tokenizer flushes the accumulated text as a segment
tagged with the pre-toggle style; a doubled marker toggles bold (skipping
both characters), a bare `*`/`_` toggles italic; and on the input
`"**bold** and *italic*"` it produces exactly
`[("bold", bold), (" and ", plain), ("italic", italic)]`. -/
theorem parseInlineMarkdown_toggle_semantics :
    (∀ c rest currentText currentStyle, (c = '*' ∨ c = '_') → currentText ≠ [] →
        ∃ tailSegs, parseInlineLoop (c :: rest) currentText currentStyle =
          ⟨currentText, currentStyle⟩ :: tailSegs) ∧
    (∀ c rest currentText currentStyle, (c = '*' ∨ c = '_') → rest.head? = some c →
        parseInlineLoop (c :: rest) currentText currentStyle =
          (if currentText ≠ [] then [⟨currentText, currentStyle⟩] else []) ++
            parseInlineLoop rest.tail [] { currentStyle with bold := !currentStyle.bold }) ∧
    (∀ c rest currentText currentStyle, (c = '*' ∨ c = '_') → rest.head? ≠ some c →
        parseInlineLoop (c :: rest) currentText currentStyle =
          (if currentText ≠ [] then [⟨currentText, currentStyle⟩] else []) ++
            parseInlineLoop rest [] { currentStyle with italic := !currentStyle.italic }) ∧
    parseInlineMarkdown "**bold** and *italic*".toList =
      [⟨"bold".toList, { defaultStyle with bold := true }⟩,
       ⟨" and ".toList, defaultStyle⟩,
       ⟨"italic".toList, { defaultStyle with italic := true }⟩] := by
  refine ⟨?_, ?_, ?_, ?_⟩
  · intro c rest currentText currentStyle hc hne
    rcases hc with hc | hc <;> subst hc
    · by_cases h2 : rest.head? = some '*'
      · exact ⟨parseInlineLoop rest.tail [] { currentStyle with bold := !currentStyle.bold },
          by rw [parseInlineLoop]; simp [h2, hne]⟩
      · exact ⟨parseInlineLoop rest [] { currentStyle with italic := !currentStyle.italic },
          by rw [parseInlineLoop]; simp [h2, hne]⟩
    · by_cases h2 : rest.head? = some '_'
      · exact ⟨parseInlineLoop rest.tail [] { currentStyle with bold := !currentStyle.bold },
          by rw [parseInlineLoop]; simp [h2, hne]⟩
      · exact ⟨parseInlineLoop rest [] { currentStyle with italic := !currentStyle.italic },
          by rw [parseInlineLoop]; simp [h2, hne]⟩
  · intro c rest currentText currentStyle hc hd
    rw [parseInlineLoop]
    rcases hc with hc | hc <;> subst hc <;> simp [hd]
  · intro c rest currentText currentStyle hc hd
    rw [parseInlineLoop]
    rcases hc with hc | hc <;> subst hc <;> simp [hd]
  · simp [parseInlineMarkdown, parseInlineLoop, defaultStyle]

/-- Witness for C3: the doubled-marker equation applied at a concrete
input with a non-empty accumulated run. -/
theorem parseInlineMarkdown_toggle_semantics_witness :
    (('*' : Char) = '*' ∨ ('*' : Char) = '_') ∧
    (['*', 'x'] : Str).head? = some '*' ∧
    parseInlineLoop ('*' :: ['*', 'x']) "ab".toList defaultStyle =
      (if ("ab".toList : Str) ≠ [] then [⟨"ab".toList, defaultStyle⟩] else []) ++
        parseInlineLoop (['*', 'x'] : Str).tail []
          { defaultStyle with bold := !defaultStyle.bold } :=
  ⟨Or.inl rfl, rfl,
    parseInlineMarkdown_toggle_semantics.2.1 '*' ['*', 'x'] "ab".toList defaultStyle
      (Or.inl rfl) rfl⟩

set_option maxHeartbeats 4000000 in
/-- Claim C8: with starting y = 0, effective lineHeight 10 and page
bottom maxY = 32 - 20 = 12, the two-block input `"# Title\nSecond
paragraph"` draws only the heading content (a single draw call for
`"Title"`), and layout returns y = 10 ≤ 12. -/
theorem page_truncation_example :
    parsePDFMarkdown mu10 32 st0 "# Title\nSecond paragraph".toList 0 0 opts8 =
      (10, ⟨"F".toList, "normal".toList, 10⟩,
        [⟨"Title".toList, 5 / 2, 10, ⟨"F".toList, "normal".toList, 10⟩⟩]) ∧
    opts8.fontSize * (352778 / 1000000) * opts8.lineHeight = 10 ∧
    (10 : ℚ) ≤ 32 - 20 := by
  refine ⟨?_, by norm_num [opts8], by norm_num⟩
  rw [parsePDFMarkdown]
  iterate 6
    (all_goals try simp [replaceDashes, collapseNewlines, collapseNLGo, splitOnChar, opts8,
        st0, mu10, processLines, calculateIndentation, listMarkerMatch, jsTrim, isJsWs,
        headerMatch, takeWhileStr, dropWhileStr, orderedListMatch, unorderedListMatch,
        parseInlineMarkdown, parseInlineLoop, defaultStyle, splitTextToLines, segmentsLoop,
        wordsLoop, jsSplitWs, splitWsGo, splitWsSkip, processWord, applyStyle, fontStyleOf,
        commitLine, partsLoop, splitWordIfNeeded, splitWordLoop, verifyLines, verifyMeasureLoop,
        rebuildLoop, rebuildParts, linesLoop, renderLine, renderJustifiedLine, fallbackLoop,
        justifiedMeasureLoop, justifiedDrawLoop, measureSegments, drawSegments, headingSize]
     all_goals try norm_num)

/-! ### splitWordIfNeeded lemmas -/

theorem splitWordLoop_ne_nil (μ : Measure) (st : DocState) (style : TextStyle) (w : ℚ) :
    ∀ (chars : Str) (result : List TextSegment) (currentPart : Str),
      (result ≠ [] ∨ currentPart ≠ [] ∨ chars ≠ []) →
      splitWordLoop μ st style w chars result currentPart ≠ [] := by
  intro chars
  induction chars with
  | nil =>
      intro result currentPart h
      rw [splitWordLoop]
      rcases h with h | h | h
      · split <;> simp [h]
      · simp [List.length_pos.2 h]
      · exact absurd rfl h
  | cons ch rest ih =>
      intro result currentPart _
      rw [splitWordLoop]
      split
      · split
        · exact ih _ _ (Or.inl (by simp))
        · split
          · exact ih _ _ (Or.inl (by simp))
          · exact ih _ _ (Or.inl (by simp))
      · exact ih _ _ (Or.inr (Or.inl (by simp)))

theorem splitWordLoop_text_ne_nil (μ : Measure) (st : DocState) (style : TextStyle) (w : ℚ) :
    ∀ (chars : Str) (result : List TextSegment) (currentPart : Str),
      (∀ f ∈ result, f.text ≠ []) →
      ∀ f ∈ splitWordLoop μ st style w chars result currentPart, f.text ≠ [] := by
  intro chars
  induction chars with
  | nil =>
      intro result currentPart hres
      rw [splitWordLoop]
      split
      · intro f hf
        rcases List.mem_append.1 hf with hf | hf
        · exact hres f hf
        · rcases List.mem_singleton.1 hf with rfl
          simpa using List.length_pos.1 (by assumption)
      · exact hres
  | cons ch rest ih =>
      intro result currentPart hres
      rw [splitWordLoop]
      split
      · split
        · refine ih _ _ ?_
          intro f hf
          rcases List.mem_append.1 hf with hf | hf
          · exact hres f hf
          · rcases List.mem_singleton.1 hf with rfl; simp
        · split
          · refine ih _ _ ?_
            intro f hf
            rcases List.mem_append.1 hf with hf | hf
            · exact hres f hf
            · rcases List.mem_singleton.1 hf with rfl
              simpa using List.length_pos.1 (by assumption)
          · refine ih _ _ ?_
            intro f hf
            rcases List.mem_append.1 hf with hf | hf
            · exact hres f hf
            · rcases List.mem_singleton.1 hf with rfl; simp
      · exact ih _ _ hres

/-- Claim C4: for every non-empty word, every style, every measurement
and every maxWidth, splitWordIfNeeded returns at least one fragment and
every fragment has non-empty text (termination is inherent in the
definition being total). -/
theorem splitWordIfNeeded_total (μ : Measure) (st : DocState) (word : Str)
    (style : TextStyle) (maxWidth : ℚ) (h : word ≠ []) :
    (splitWordIfNeeded μ st word style maxWidth).1 ≠ [] ∧
    ∀ frag ∈ (splitWordIfNeeded μ st word style maxWidth).1, frag.text ≠ [] := by
  rw [splitWordIfNeeded]
  split
  · exact ⟨by simp, by simpa using h⟩
  · exact ⟨splitWordLoop_ne_nil μ _ style maxWidth word [] [] (Or.inr (Or.inr h)),
      splitWordLoop_text_ne_nil μ _ style maxWidth word [] [] (by simp)⟩

/-- Witness for C4 at the concrete word `"abcdef"` with per-character
width 10 and maxWidth 25. -/
theorem splitWordIfNeeded_total_witness :
    ("abcdef".toList : Str) ≠ [] ∧
    ((splitWordIfNeeded mu10 st0 "abcdef".toList defaultStyle 25).1 ≠ [] ∧
      ∀ frag ∈ (splitWordIfNeeded mu10 st0 "abcdef".toList defaultStyle 25).1,
        frag.text ≠ []) :=
  ⟨by simp, splitWordIfNeeded_total mu10 st0 "abcdef".toList defaultStyle 25 (by simp)⟩

theorem splitWordLoop_res_factor (μ : Measure) (st : DocState) (style : TextStyle) (w : ℚ) :
    ∀ (chars : Str) (result : List TextSegment) (currentPart : Str),
      splitWordLoop μ st style w chars result currentPart =
        result ++ splitWordLoop μ st style w chars [] currentPart := by
  intro chars
  induction chars with
  | nil =>
      intro result currentPart
      rw [splitWordLoop, splitWordLoop]
      split <;> simp
  | cons ch rest ih =>
      intro result currentPart
      rw [splitWordLoop]
      conv_rhs => rw [splitWordLoop]
      split
      · split
        · rw [ih (result ++ _), ih ([] ++ _)]; simp
        · split
          · rw [ih (result ++ _), ih ([] ++ _)]; simp
          · rw [ih (result ++ _), ih ([] ++ _)]; simp
      · exact ih result _

theorem fragsOK_length : ∀ (fs : List TextSegment) (bs : List Str),
    fragsOK fs bs → fs.length = bs.length := by
  intro fs
  induction fs with
  | nil => intro bs h; cases bs with
      | nil => rfl
      | cons b bs => simp [fragsOK] at h
  | cons f fs ih =>
      intro bs h
      cases bs with
      | nil => cases fs <;> simp [fragsOK] at h
      | cons b bs =>
          cases fs with
          | nil => cases bs with
              | nil => rfl
              | cons b2 bs2 => simp [fragsOK] at h
          | cons f2 fs2 =>
              cases bs with
              | nil => simp [fragsOK] at h
              | cons b2 bs2 => simpa using ih _ h.2

theorem fragsOK_cons_plain (f : TextSegment) (b : Str) (fs : List TextSegment)
    (bs : List Str) (hb : f.text = b) (h : fragsOK fs bs) :
    fragsOK (f :: fs) (b :: bs) := by
  cases fs with
  | nil =>
      cases bs with
      | nil => exact hb
      | cons b2 bs2 => simp [fragsOK] at h
  | cons f2 fs2 =>
      cases bs with
      | nil => simp [fragsOK] at h
      | cons b2 bs2 => exact ⟨Or.inl hb, h⟩

theorem fragsOK_cons_hyphen (f : TextSegment) (b : Str) (fs : List TextSegment)
    (bs : List Str) (hb : f.text = b ++ ['-']) (hlen : 2 ≤ b.length)
    (h : fragsOK fs bs) (hne : fs ≠ []) :
    fragsOK (f :: fs) (b :: bs) := by
  cases fs with
  | nil => exact absurd rfl hne
  | cons f2 fs2 =>
      cases bs with
      | nil => simp [fragsOK] at h
      | cons b2 bs2 => exact ⟨Or.inr ⟨hb, hlen⟩, h⟩

theorem splitWordLoop_partition (μ : Measure) (st : DocState) (style : TextStyle) (w : ℚ) :
    ∀ (chars currentPart : Str),
      ∃ bs : List Str, bs.flatten = currentPart ++ chars ∧
        fragsOK (splitWordLoop μ st style w chars [] currentPart) bs := by
  intro chars
  induction chars with
  | nil =>
      intro currentPart
      rw [splitWordLoop]
      by_cases h : currentPart.length > 0
      · exact ⟨[currentPart], by simp, by simp [h, fragsOK]⟩
      · have : currentPart = [] := by simpa using h
        subst this
        exact ⟨[], by simp, by simp [h, fragsOK]⟩
  | cons ch rest ih =>
      intro currentPart
      rw [splitWordLoop]
      split
      · split
        · obtain ⟨bs, hjoin, hok⟩ := ih [ch]
          refine ⟨currentPart :: bs, by simp [hjoin], ?_⟩
          rw [splitWordLoop_res_factor]
          exact fragsOK_cons_hyphen _ _ _ _ rfl (by assumption) hok
            (splitWordLoop_ne_nil μ st style w rest [] [ch] (Or.inr (Or.inl (by simp))))
        · split
          · obtain ⟨bs, hjoin, hok⟩ := ih [ch]
            refine ⟨currentPart :: bs, by simp [hjoin], ?_⟩
            rw [splitWordLoop_res_factor]
            exact fragsOK_cons_plain _ _ _ _ rfl hok
          · obtain ⟨bs, hjoin, hok⟩ := ih []
            have hcp : currentPart = [] := by
              by_contra hcp
              exact absurd (List.length_pos.2 hcp) (by assumption)
            subst hcp
            refine ⟨[ch] :: bs, by simp [hjoin], ?_⟩
            rw [splitWordLoop_res_factor]
            exact fragsOK_cons_plain _ _ _ _ rfl hok
      · obtain ⟨bs, hjoin, hok⟩ := ih (currentPart ++ [ch])
        exact ⟨bs, by simpa using hjoin, hok⟩

/-- Claim C10: the fragments returned by splitWordIfNeeded are, in order,
the blocks of a partition of the word's characters, each fragment's text
equal to its block unchanged or with a single `-` appended, the appended
hyphen occurring only on non-final blocks of length ≥ 2; joining the
blocks reconstructs the word exactly. -/
theorem splitWordIfNeeded_partition (μ : Measure) (st : DocState) (word : Str)
    (style : TextStyle) (maxWidth : ℚ) :
    ∃ bs : List Str, bs.flatten = word ∧
      fragsOK (splitWordIfNeeded μ st word style maxWidth).1 bs := by
  rw [splitWordIfNeeded]
  split
  · exact ⟨[word], by simp, by simp [fragsOK]⟩
  · simpa using splitWordLoop_partition μ _ style maxWidth word []

/-! ### renderJustifiedLine fallback vs left alignment -/

theorem applyStyle_idem (st : DocState) (style : TextStyle) (b : ℚ) (f : Str) :
    applyStyle (applyStyle st style b f) style b f = applyStyle st style b f := by
  cases h : style.heading with
  | none => simp [applyStyle, h]
  | some level => simp only [applyStyle, h]

theorem fallback_eval_segs3 :
    (renderJustifiedLine mu10 st0 segs3 0 0 100 true).2 =
      [⟨"a".toList, 0, 0, st0⟩, ⟨" ".toList, 20, 0, st0⟩, ⟨"b".toList, 30, 0, st0⟩] := by
  iterate 3
    (all_goals try simp [renderJustifiedLine, fallbackLoop, segs3, mu10, st0, applyStyle,
        fontStyleOf, defaultStyle]
     all_goals try norm_num)

theorem left_eval_segs3 :
    (renderLine mu10 optsL 0 100 (fun tw => 0 + (100 - tw) / 2) (fun tw => 0 + 100 - tw)
        st0 0 segs3 true).2 =
      [⟨"a".toList, 0, 0, st0⟩, ⟨" ".toList, 10, 0, st0⟩, ⟨"b".toList, 20, 0, st0⟩] := by
  iterate 3
    (all_goals try simp [renderLine, measureSegments, drawSegments, optsL, segs3, mu10, st0,
        applyStyle, fontStyleOf, defaultStyle]
     all_goals try norm_num)

/-- Claim C2, counterexample: on the last line `[a, gap, b]` (per-char
width 10), the justify fallback draws `b` at x = 30 (it advances by the
width of each text plus a trailing space), while left alignment draws `b`
at x = 20 — the draw sequences differ. -/
theorem justify_fallback_not_left_counterexample :
    (renderJustifiedLine mu10 st0 segs3 0 0 100 true).2 ≠
      (renderLine mu10 optsL 0 100 (fun tw => 0 + (100 - tw) / 2) (fun tw => 0 + 100 - tw)
        st0 0 segs3 true).2 := by
  rw [fallback_eval_segs3, left_eval_segs3]
  intro h
  have h2 := congrArg (fun l => (l.get? 1).map DrawCall.x) h
  norm_num at h2

/-- Claim C2, amended: the justify fallback renders identically to left
alignment only for lines with at most one segment (drawing the segment at
the same x with the same applied style, provided the doc's font name and
size agree with the options); for multi-segment last lines the fallback
advances the cursor by each text's width plus a trailing space and so
differs from left alignment. -/
theorem renderJustifiedLine_single_segment_left (μ : Measure) (options : PDFMarkdownOptions)
    (st : DocState) (xStart justifyWidth y : ℚ) (centerX rightX : ℚ → ℚ)
    (segments : List TextSegment) (isLast isLast2 : Bool)
    (hname : st.fontName = options.font) (hsize : st.fontSize = options.fontSize)
    (halign : options.align = some AlignKind.left)
    (hlen : segments.length ≤ 1) :
    (renderJustifiedLine μ st segments xStart y justifyWidth isLast).2 =
      (renderLine μ options xStart justifyWidth centerX rightX st y segments isLast2).2 := by
  match segments with
  | [] =>
      simp [renderJustifiedLine, fallbackLoop, renderLine, measureSegments, drawSegments, halign]
  | [seg] =>
      simp only [renderJustifiedLine, renderLine, fallbackLoop, measureSegments, drawSegments,
        halign, hname, hsize, applyStyle_idem, List.length_cons, List.length_nil]
      simp [applyStyle_idem]
  | s1 :: s2 :: rest => simp at hlen

/-- Witness for C2 at a concrete one-segment line. -/
theorem renderJustifiedLine_single_segment_left_witness :
    st0.fontName = optsL.font ∧ st0.fontSize = optsL.fontSize ∧
    optsL.align = some AlignKind.left ∧
    ([⟨"a".toList, defaultStyle⟩] : List TextSegment).length ≤ 1 ∧
    (renderJustifiedLine mu10 st0 [⟨"a".toList, defaultStyle⟩] 3 7 50 false).2 =
      (renderLine mu10 optsL 3 50 (fun tw => tw) (fun tw => tw) st0 7
        [⟨"a".toList, defaultStyle⟩] false).2 :=
  ⟨rfl, rfl, rfl, by norm_num,
    renderJustifiedLine_single_segment_left mu10 optsL st0 3 50 7 (fun tw => tw) (fun tw => tw)
      [⟨"a".toList, defaultStyle⟩] false false rfl rfl rfl (by norm_num)⟩

/-! ### renderJustifiedLine gap distribution -/

theorem applyStyle_none (st : DocState) (style : TextStyle) (b : ℚ) (f : Str)
    (h : style.heading = none) :
    applyStyle st style b f = ⟨f, fontStyleOf style, b⟩ := by
  simp [applyStyle, h]

theorem justifiedMeasureLoop_spec (μ : Measure) :
    ∀ (segs : List TextSegment) (st : DocState) (total : ℚ),
      (∀ seg ∈ segs, seg.style.heading = none) →
      (justifiedMeasureLoop μ segs st total).1 =
          total + (segs.map (fun seg =>
            μ (styleState st.fontName st.fontSize seg.style) seg.text)).sum ∧
      (justifiedMeasureLoop μ segs st total).2.fontName = st.fontName ∧
      (justifiedMeasureLoop μ segs st total).2.fontSize = st.fontSize := by
  intro segs
  induction segs with
  | nil => intro st total _; simp [justifiedMeasureLoop]
  | cons seg rest ih =>
      intro st total hh
      rw [justifiedMeasureLoop]
      rw [applyStyle_none st seg.style st.fontSize st.fontName (hh seg (List.mem_cons_self _ _))]
      have hrest : ∀ s ∈ rest, s.style.heading = none :=
        fun s hs => hh s (List.mem_cons_of_mem _ hs)
      obtain ⟨h1, h2, h3⟩ := ih ⟨st.fontName, fontStyleOf seg.style, st.fontSize⟩
        (total + μ ⟨st.fontName, fontStyleOf seg.style, st.fontSize⟩ seg.text) hrest
      refine ⟨?_, by simpa using h2, by simpa using h3⟩
      rw [h1]
      simp [styleState]
      ring

theorem justifiedDrawLoop_spec (μ : Measure) (extra y : ℚ) (n : Nat) :
    ∀ (segs : List TextSegment) (index : Nat) (st : DocState) (cx : ℚ) (log : List DrawCall),
      (∀ seg ∈ segs, seg.style.heading = none) →
      index + segs.length = n →
      (justifiedDrawLoop μ extra y n segs index st cx log).2.2 =
        log ++ justifiedGo μ st.fontName st.fontSize extra y segs cx := by
  intro segs
  induction segs with
  | nil => intro index st cx log _ _; simp [justifiedDrawLoop, justifiedGo]
  | cons seg rest ih =>
      intro index st cx log hh hn
      rw [justifiedDrawLoop, justifiedGo]
      rw [applyStyle_none st seg.style st.fontSize st.fontName (hh seg (List.mem_cons_self _ _))]
      have hrest : ∀ s ∈ rest, s.style.heading = none :=
        fun s hs => hh s (List.mem_cons_of_mem _ hs)
      have hcond : (decide (index < n - 1)) = !rest.isEmpty := by
        cases rest with
        | nil => simp at hn ⊢; omega
        | cons r rs => simp at hn ⊢; omega
      have hrec := ih (index + 1) ⟨st.fontName, fontStyleOf seg.style, st.fontSize⟩
        (cx + μ ⟨st.fontName, fontStyleOf seg.style, st.fontSize⟩ seg.text +
          (if seg.text = [' '] && !rest.isEmpty then extra else 0))
        (log ++ [⟨seg.text, cx, y, ⟨st.fontName, fontStyleOf seg.style, st.fontSize⟩⟩])
        hrest (by simp at hn ⊢; omega)
      simp only [styleState] at hrec ⊢
      rw [hcond]
      by_cases hg : (decide (seg.text = [' ']) && !rest.isEmpty) = true
      · simp only [hg, if_true] at hrec ⊢
        rw [hrec]; simp
      · simp only [Bool.not_eq_true] at hg
        simp only [hg, Bool.false_eq_true, if_false, add_zero] at hrec ⊢
        rw [hrec]; simp

/-- Claim C6, counterexample: on the line `[a, gap, b]` with per-char
width 10 and availableWidth 100, the code computes totalTextWidth over
ALL segments (30, gap included), giving extraPerGap 70 and drawing `b`
at x = 90; the claim's totalTextWidth over non-gap segments only (20)
would give extraPerGap 80 and draw `b` at x = 100. -/
theorem justify_total_width_counterexample :
    (renderJustifiedLine mu10 st0 segs3 0 0 100 false).2 ≠
      justifiedClaimDraws mu10 st0 segs3 0 0 100 := by
  have h1 : (renderJustifiedLine mu10 st0 segs3 0 0 100 false).2 =
      [⟨"a".toList, 0, 0, st0⟩, ⟨" ".toList, 10, 0, st0⟩, ⟨"b".toList, 90, 0, st0⟩] := by
    iterate 3
      (all_goals try simp [renderJustifiedLine, justifiedMeasureLoop, justifiedDrawLoop,
          segs3, mu10, st0, applyStyle, fontStyleOf, defaultStyle]
       all_goals try norm_num)
  have h2 : justifiedClaimDraws mu10 st0 segs3 0 0 100 =
      [⟨"a".toList, 0, 0, st0⟩, ⟨" ".toList, 10, 0, st0⟩, ⟨"b".toList, 100, 0, st0⟩] := by
    iterate 3
      (all_goals try simp [justifiedClaimDraws, justifiedGo, styleState, segs3, mu10, st0,
          fontStyleOf, defaultStyle]
       all_goals try norm_num)
  rw [h1, h2]
  intro h
  have h3 := congrArg (fun l => (l.get? 2).map DrawCall.x) h
  norm_num at h3

/-- Claim C6, amended: for a non-last line with ≥ 2 segments under
justify, the draws are exactly the claim's placement discipline but with
`totalTextWidth` computed over ALL segments (gap markers included at
their natural widths): extraPerGap = max(0, availableWidth - sum of all
segment widths) / numberOfGaps (0 if none), each segment drawn at its
natural width, the cursor advancing additionally by extraPerGap after
each non-final gap marker. -/
theorem renderJustifiedLine_gap_distribution (μ : Measure) (st : DocState)
    (segments : List TextSegment) (x y maxWidth : ℚ)
    (hh : ∀ seg ∈ segments, seg.style.heading = none)
    (hlen : 2 ≤ segments.length) :
    (renderJustifiedLine μ st segments x y maxWidth false).2 =
      justifiedModelDraws μ st segments x y maxWidth := by
  rw [renderJustifiedLine, justifiedModelDraws]
  rw [if_neg (by simp; omega)]
  obtain ⟨hm1, hm2, hm3⟩ := justifiedMeasureLoop_spec μ segments st 0 hh
  rw [justifiedDrawLoop_spec μ _ y segments.length segments 0 _ x [] hh (by omega)]
  rw [hm1, hm2, hm3]
  simp

/-- Witness for C6 at the concrete line `[a, gap, b]`. -/
theorem renderJustifiedLine_gap_distribution_witness :
    (∀ seg ∈ segs3, seg.style.heading = none) ∧ 2 ≤ segs3.length ∧
    (renderJustifiedLine mu10 st0 segs3 0 0 100 false).2 =
      justifiedModelDraws mu10 st0 segs3 0 0 100 :=
  ⟨by simp [segs3, defaultStyle], by simp [segs3],
    renderJustifiedLine_gap_distribution mu10 st0 segs3 0 0 100
      (by simp [segs3, defaultStyle]) (by simp [segs3])⟩

/-! ### Heading blocks: styles and draw states -/

theorem parseInlineLoop_heading_none_aux :
    ∀ (n : Nat) (text currentText : Str) (currentStyle : TextStyle),
      text.length ≤ n → currentStyle.heading = none →
      ∀ seg ∈ parseInlineLoop text currentText currentStyle, seg.style.heading = none := by
  intro n
  induction n with
  | zero =>
      intro text currentText currentStyle hlen h seg hseg
      have : text = [] := List.eq_nil_of_length_eq_zero (Nat.le_zero.1 hlen)
      subst this
      rw [parseInlineLoop] at hseg
      split at hseg
      · rcases List.mem_singleton.1 hseg with rfl; exact h
      · simp at hseg
  | succ n ih =>
      intro text currentText currentStyle hlen h seg hseg
      match text with
      | [] =>
          rw [parseInlineLoop] at hseg
          split at hseg
          · rcases List.mem_singleton.1 hseg with rfl; exact h
          · simp at hseg
      | c :: rest =>
          rw [parseInlineLoop] at hseg
          dsimp only [] at hseg
          have hrest : rest.length ≤ n := by simp at hlen; omega
          split at hseg
          · split at hseg
            · rcases List.mem_append.1 hseg with hf | hf
              · split at hf
                · rcases List.mem_singleton.1 hf with rfl; exact h
                · simp at hf
              · exact ih rest.tail [] _ (le_trans (by simp [List.length_tail]; omega) le_rfl)
                  (by simpa using h) seg hf
            · rcases List.mem_append.1 hseg with hf | hf
              · split at hf
                · rcases List.mem_singleton.1 hf with rfl; exact h
                · simp at hf
              · exact ih rest [] _ hrest (by simpa using h) seg hf
          · exact ih rest (currentText ++ [c]) currentStyle hrest h seg hseg

theorem parseInlineMarkdown_heading_none (text : Str) :
    ∀ seg ∈ parseInlineMarkdown text, seg.style.heading = none :=
  parseInlineLoop_heading_none_aux text.length text [] defaultStyle le_rfl rfl

theorem splitWordLoop_style (Q : TextStyle → Prop) (μ : Measure) (st : DocState)
    (style : TextStyle) (w : ℚ) (hQ : Q style) :
    ∀ (chars : Str) (result : List TextSegment) (currentPart : Str),
      (∀ f ∈ result, Q f.style) →
      ∀ f ∈ splitWordLoop μ st style w chars result currentPart, Q f.style := by
  intro chars
  induction chars with
  | nil =>
      intro result currentPart hres
      rw [splitWordLoop]
      split
      · intro f hf
        rcases List.mem_append.1 hf with hf | hf
        · exact hres f hf
        · rcases List.mem_singleton.1 hf with rfl; exact hQ
      · exact hres
  | cons ch rest ih =>
      intro result currentPart hres
      rw [splitWordLoop]
      split
      · split
        · refine ih _ _ ?_
          intro f hf
          rcases List.mem_append.1 hf with hf | hf
          · exact hres f hf
          · rcases List.mem_singleton.1 hf with rfl; exact hQ
        · split
          · refine ih _ _ ?_
            intro f hf
            rcases List.mem_append.1 hf with hf | hf
            · exact hres f hf
            · rcases List.mem_singleton.1 hf with rfl; exact hQ
          · refine ih _ _ ?_
            intro f hf
            rcases List.mem_append.1 hf with hf | hf
            · exact hres f hf
            · rcases List.mem_singleton.1 hf with rfl; exact hQ
      · exact ih _ _ hres

theorem splitWordIfNeeded_style (Q : TextStyle → Prop) (μ : Measure) (st : DocState)
    (word : Str) (style : TextStyle) (maxWidth : ℚ) (hQ : Q style) :
    ∀ f ∈ (splitWordIfNeeded μ st word style maxWidth).1, Q f.style := by
  rw [splitWordIfNeeded]
  split
  · intro f hf; rcases List.mem_singleton.1 hf with rfl; exact hQ
  · exact splitWordLoop_style Q μ _ style maxWidth hQ word [] [] (by simp)

theorem splitWordLoop_chars (Q : Char → Prop) (μ : Measure) (st : DocState)
    (style : TextStyle) (w : ℚ) (hdash : Q '-') :
    ∀ (chars : Str) (result : List TextSegment) (currentPart : Str),
      (∀ f ∈ result, ∀ c ∈ f.text, Q c) →
      (∀ c ∈ currentPart, Q c) → (∀ c ∈ chars, Q c) →
      ∀ f ∈ splitWordLoop μ st style w chars result currentPart, ∀ c ∈ f.text, Q c := by
  intro chars
  induction chars with
  | nil =>
      intro result currentPart hres hcur _
      rw [splitWordLoop]
      split
      · intro f hf
        rcases List.mem_append.1 hf with hf | hf
        · exact hres f hf
        · rcases List.mem_singleton.1 hf with rfl; exact hcur
      · exact hres
  | cons ch rest ih =>
      intro result currentPart hres hcur hchars
      have hch : Q ch := hchars ch (List.mem_cons_self _ _)
      have hrest : ∀ c ∈ rest, Q c := fun c hc => hchars c (List.mem_cons_of_mem _ hc)
      rw [splitWordLoop]
      split
      · split
        · refine ih _ _ ?_ (by simpa using hch) hrest
          intro f hf
          rcases List.mem_append.1 hf with hf | hf
          · exact hres f hf
          · rcases List.mem_singleton.1 hf with rfl
            intro c hc
            rcases List.mem_append.1 hc with hc | hc
            · exact hcur c hc
            · rcases List.mem_singleton.1 hc with rfl; exact hdash
        · split
          · refine ih _ _ ?_ (by simpa using hch) hrest
            intro f hf
            rcases List.mem_append.1 hf with hf | hf
            · exact hres f hf
            · rcases List.mem_singleton.1 hf with rfl; exact hcur
          · refine ih _ _ ?_ (by simp) hrest
            intro f hf
            rcases List.mem_append.1 hf with hf | hf
            · exact hres f hf
            · rcases List.mem_singleton.1 hf with rfl
              simpa using hch
      · refine ih _ _ hres ?_ hrest
        intro c hc
        rcases List.mem_append.1 hc with hc | hc
        · exact hcur c hc
        · rcases List.mem_singleton.1 hc with rfl; exact hch

theorem splitWordIfNeeded_chars (Q : Char → Prop) (μ : Measure) (st : DocState)
    (word : Str) (style : TextStyle) (maxWidth : ℚ) (hdash : Q '-')
    (hword : ∀ c ∈ word, Q c) :
    ∀ f ∈ (splitWordIfNeeded μ st word style maxWidth).1, ∀ c ∈ f.text, Q c := by
  rw [splitWordIfNeeded]
  split
  · intro f hf; rcases List.mem_singleton.1 hf with rfl; exact hword
  · exact splitWordLoop_chars Q μ _ style maxWidth hdash word [] [] (by simp) (by simp) hword

theorem splitWs_ws_free_aux :
    ∀ n : Nat,
      (∀ (s field : Str), s.length ≤ n → (∀ c ∈ field, isJsWs c = false) →
        ∀ w ∈ splitWsGo s field, ∀ c ∈ w, isJsWs c = false) ∧
      (∀ s : Str, s.length ≤ n →
        ∀ w ∈ splitWsSkip s, ∀ c ∈ w, isJsWs c = false) := by
  intro n
  induction n with
  | zero =>
      constructor
      · intro s field hlen hfield w hw
        have : s = [] := List.eq_nil_of_length_eq_zero (Nat.le_zero.1 hlen)
        subst this
        rw [splitWsGo] at hw
        rcases List.mem_singleton.1 hw with rfl
        intro c hc
        exact hfield c (List.mem_reverse.1 hc)
      · intro s hlen w hw
        have : s = [] := List.eq_nil_of_length_eq_zero (Nat.le_zero.1 hlen)
        subst this
        rw [splitWsSkip] at hw
        rcases List.mem_singleton.1 hw with rfl
        simp
  | succ n ih =>
      constructor
      · intro s field hlen hfield w hw
        cases s with
        | nil =>
            rw [splitWsGo] at hw
            rcases List.mem_singleton.1 hw with rfl
            intro c hc
            exact hfield c (List.mem_reverse.1 hc)
        | cons ch rest =>
            rw [splitWsGo] at hw
            have hrest : rest.length ≤ n := by simp at hlen; omega
            split at hw
            · rcases List.mem_cons.1 hw with rfl | hw
              · intro c hc
                exact hfield c (List.mem_reverse.1 hc)
              · exact ih.2 rest hrest w hw
            · rename_i hch
              refine ih.1 rest (ch :: field) hrest ?_ w hw
              intro c hc
              rcases List.mem_cons.1 hc with rfl | hc
              · simpa using hch
              · exact hfield c hc
      · intro s hlen w hw
        cases s with
        | nil =>
            rw [splitWsSkip] at hw
            rcases List.mem_singleton.1 hw with rfl
            simp
        | cons ch rest =>
            rw [splitWsSkip] at hw
            have hrest : rest.length ≤ n := by simp at hlen; omega
            split at hw
            · exact ih.2 rest hrest w hw
            · rename_i hch
              refine ih.1 rest [ch] hrest ?_ w hw
              intro c hc
              rcases List.mem_singleton.1 hc with rfl
              simpa using hch

theorem jsSplitWs_ws_free (s : Str) :
    ∀ w ∈ jsSplitWs s, ∀ c ∈ w, isJsWs c = false :=
  (splitWs_ws_free_aux s.length).1 s [] le_rfl (by simp)

theorem commitLine_styles (Q : TextStyle → Prop) (acc : LineAcc)
    (h : accStylesOK Q acc) : accStylesOK Q (commitLine acc) := by
  rw [commitLine]
  split
  · refine ⟨?_, by simp⟩
    intro L hL
    rcases List.mem_append.1 hL with hL | hL
    · exact h.1 L hL
    · rcases List.mem_singleton.1 hL with rfl; exact h.2
  · exact h

theorem partsLoop_styles (Q : TextStyle → Prop) (μ : Measure) :
    ∀ (parts : List TextSegment) (index : Nat) (acc : LineAcc),
      accStylesOK Q acc → (∀ p ∈ parts, Q p.style) →
      accStylesOK Q (partsLoop μ parts index acc) := by
  intro parts
  induction parts with
  | nil => intro index acc h _; rw [partsLoop]; exact h
  | cons p rest ih =>
      intro index acc h hp
      rw [partsLoop]
      refine ih _ _ ?_ (fun q hq => hp q (List.mem_cons_of_mem _ hq))
      have h1 : accStylesOK Q (if index > 0 then commitLine acc else acc) := by
        split
        · exact commitLine_styles Q acc h
        · exact h
      refine ⟨h1.1, ?_⟩
      intro seg hseg
      rcases List.mem_append.1 hseg with hseg | hseg
      · exact h1.2 seg hseg
      · rcases List.mem_singleton.1 hseg with rfl
        exact hp _ (List.mem_cons_self _ _)

theorem commitLine_st (acc : LineAcc) : (commitLine acc).st = acc.st := by
  rw [commitLine]; split <;> rfl

theorem processWord_styles (Q : TextStyle → Prop) (μ : Measure) (font : Str)
    (availableWidth spaceWidth : ℚ) (style : TextStyle) (acc : LineAcc) (word : Str)
    (h : accStylesOK Q acc) (hQ : Q style) :
    accStylesOK Q (processWord μ font availableWidth spaceWidth style acc word) := by
  have hsw : ∀ f ∈ (splitWordIfNeeded μ
      (applyStyle acc.st style acc.st.fontSize font) word style availableWidth).1, Q f.style :=
    splitWordIfNeeded_style Q μ _ word style availableWidth hQ
  rw [processWord]
  dsimp only []
  split
  · exact h
  · by_cases hgap : acc.currentLineSegments.length > 0 <;>
      simp only [hgap, if_true, if_false] <;> split
    · refine ⟨h.1, ?_⟩
      intro seg hseg
      rcases List.mem_append.1 hseg with hs | hs
      · rcases List.mem_append.1 hs with hs2 | hs2
        · exact h.2 seg hs2
        · rcases List.mem_singleton.1 hs2 with rfl; exact hQ
      · rcases List.mem_singleton.1 hs with rfl; exact hQ
    · split
      · exact ⟨(commitLine_styles Q
            { acc with st := applyStyle acc.st style acc.st.fontSize font } h).1,
          fun seg hseg => by rcases List.mem_singleton.1 hseg with rfl; exact hQ⟩
      · simp only [commitLine_st]
        exact partsLoop_styles Q μ _ 0 _ (commitLine_styles Q
          { acc with st := applyStyle acc.st style acc.st.fontSize font } h) hsw
    · refine ⟨h.1, ?_⟩
      intro seg hseg
      rcases List.mem_append.1 hseg with hs | hs
      · exact h.2 seg hs
      · rcases List.mem_singleton.1 hs with rfl; exact hQ
    · split
      · exact ⟨(commitLine_styles Q
            { acc with st := applyStyle acc.st style acc.st.fontSize font } h).1,
          fun seg hseg => by rcases List.mem_singleton.1 hseg with rfl; exact hQ⟩
      · exact partsLoop_styles Q μ _ 0 _ h hsw

theorem wordsLoop_styles (Q : TextStyle → Prop) (μ : Measure) (font : Str)
    (availableWidth spaceWidth : ℚ) (style : TextStyle) (hQ : Q style) :
    ∀ (ws : List Str) (acc : LineAcc), accStylesOK Q acc →
      accStylesOK Q (wordsLoop μ font availableWidth spaceWidth style ws acc) := by
  intro ws
  induction ws with
  | nil => intro acc h; rw [wordsLoop]; exact h
  | cons w rest ih =>
      intro acc h
      rw [wordsLoop]
      exact ih _ (processWord_styles Q μ font availableWidth spaceWidth style acc w h hQ)

theorem segmentsLoop_styles (Q : TextStyle → Prop) (μ : Measure) (font : Str)
    (availableWidth spaceWidth : ℚ) :
    ∀ (segments : List TextSegment) (acc : LineAcc),
      (∀ seg ∈ segments, Q seg.style) → accStylesOK Q acc →
      accStylesOK Q (segmentsLoop μ font availableWidth spaceWidth segments acc) := by
  intro segments
  induction segments with
  | nil => intro acc _ h; rw [segmentsLoop]; exact h
  | cons seg rest ih =>
      intro acc hsegs h
      rw [segmentsLoop]
      refine ih _ (fun s hs => hsegs s (List.mem_cons_of_mem _ hs)) ?_
      exact wordsLoop_styles Q μ font availableWidth spaceWidth seg.style
        (hsegs seg (List.mem_cons_self _ _)) _ acc h

theorem rebuildParts_styles (Q : TextStyle → Prop) (μ : Measure)
    (availableWidth : ℚ) (st : DocState) :
    ∀ (parts : List TextSegment) (q : List TextSegment × ℚ),
      (∀ s ∈ q.1, Q s.style) → (∀ p ∈ parts, Q p.style) →
      ∀ s ∈ (rebuildParts μ availableWidth st parts q).1, Q s.style := by
  intro parts
  induction parts with
  | nil => intro q hq _; rw [rebuildParts]; exact hq
  | cons p rest ih =>
      intro q hq hp
      rw [rebuildParts]
      refine ih _ ?_ (fun r hr => hp r (List.mem_cons_of_mem _ hr))
      split
      · intro s hs
        rcases List.mem_append.1 hs with hs | hs
        · exact hq s hs
        · rcases List.mem_singleton.1 hs with rfl
          exact hp _ (List.mem_cons_self _ _)
      · exact hq

theorem rebuildLoop_styles (Q : TextStyle → Prop) (μ : Measure)
    (availableWidth spaceWidth : ℚ) :
    ∀ (line newLine : List TextSegment) (currentWidth : ℚ) (st : DocState),
      (∀ s ∈ newLine, Q s.style) → (∀ seg ∈ line, Q seg.style) →
      ∀ s ∈ (rebuildLoop μ availableWidth spaceWidth line newLine currentWidth st).1,
        Q s.style := by
  intro line
  induction line with
  | nil => intro newLine cw st hnl _; rw [rebuildLoop]; exact hnl
  | cons seg rest ih =>
      intro newLine cw st hnl hline
      rw [rebuildLoop]
      have hrest : ∀ s ∈ rest, Q s.style := fun s hs => hline s (List.mem_cons_of_mem _ hs)
      have hseg : Q seg.style := hline seg (List.mem_cons_self _ _)
      split
      · split
        · refine ih _ _ _ ?_ hrest
          intro s hs
          rcases List.mem_append.1 hs with hs | hs
          · exact hnl s hs
          · rcases List.mem_singleton.1 hs with rfl; exact hseg
        · exact ih _ _ _ hnl hrest
      · refine ih _ _ _ ?_ hrest
        exact rebuildParts_styles Q μ availableWidth _ _ _ hnl
          (splitWordIfNeeded_style Q μ _ seg.text seg.style _ hseg)

theorem verifyLines_styles (Q : TextStyle → Prop) (μ : Measure) (font : Str)
    (availableWidth spaceWidth : ℚ) :
    ∀ (lns : List (List TextSegment)) (st : DocState) (out : List (List TextSegment)),
      (∀ L ∈ lns, ∀ s ∈ L, Q s.style) → (∀ L ∈ out, ∀ s ∈ L, Q s.style) →
      ∀ L ∈ (verifyLines μ font availableWidth spaceWidth lns st out).1,
        ∀ s ∈ L, Q s.style := by
  intro lns
  induction lns with
  | nil => intro st out _ hout; rw [verifyLines]; exact hout
  | cons line rest ih =>
      intro st out hlns hout
      rw [verifyLines]
      have hline : ∀ s ∈ line, Q s.style := hlns line (List.mem_cons_self _ _)
      have hrest : ∀ L ∈ rest, ∀ s ∈ L, Q s.style :=
        fun L hL => hlns L (List.mem_cons_of_mem _ hL)
      split
      · refine ih _ _ hrest ?_
        intro L hL
        rcases List.mem_append.1 hL with hL | hL
        · exact hout L hL
        · rcases List.mem_singleton.1 hL with rfl
          exact rebuildLoop_styles Q μ availableWidth spaceWidth line [] 0 _ (by simp) hline
      · refine ih _ _ hrest ?_
        intro L hL
        rcases List.mem_append.1 hL with hL | hL
        · exact hout L hL
        · rcases List.mem_singleton.1 hL with rfl; exact hline

theorem splitTextToLines_styles (Q : TextStyle → Prop) (μ : Measure) (st : DocState)
    (segments : List TextSegment) (maxWidth baseIndentation : ℚ) (font : Str)
    (hsegs : ∀ seg ∈ segments, Q seg.style) :
    ∀ L ∈ (splitTextToLines μ st segments maxWidth baseIndentation font).1,
      ∀ s ∈ L, Q s.style := by
  rw [splitTextToLines]
  have h1 : accStylesOK Q (segmentsLoop μ font (maxWidth - baseIndentation * st.fontSize)
      (μ st [' ']) segments ⟨[], [], 0, st⟩) :=
    segmentsLoop_styles Q μ font _ _ segments ⟨[], [], 0, st⟩ hsegs ⟨by simp, by simp⟩
  have h2 : accStylesOK Q (if (segmentsLoop μ font (maxWidth - baseIndentation * st.fontSize)
      (μ st [' ']) segments ⟨[], [], 0, st⟩).currentLineSegments.length > 0 then
        commitLine (segmentsLoop μ font (maxWidth - baseIndentation * st.fontSize)
          (μ st [' ']) segments ⟨[], [], 0, st⟩)
      else segmentsLoop μ font (maxWidth - baseIndentation * st.fontSize)
        (μ st [' ']) segments ⟨[], [], 0, st⟩) := by
    split
    · exact commitLine_styles Q _ h1
    · exact h1
  exact verifyLines_styles Q μ font _ _ _ _ _ h2.1 (by simp)

theorem drawSegments_state (μ : Measure) (baseFontSize : ℚ) (font : Str) (y : ℚ) :
    ∀ (segs : List TextSegment) (st : DocState) (xOffset : ℚ) (log : List DrawCall),
      (∀ seg ∈ segs, seg.style.heading = none) →
      ∀ call ∈ (drawSegments μ baseFontSize font y segs st xOffset log).2.2,
        call ∈ log ∨ (call.state.fontSize = baseFontSize ∧ call.state.fontName = font) := by
  intro segs
  induction segs with
  | nil => intro st x log _ call hcall; rw [drawSegments] at hcall; exact Or.inl hcall
  | cons seg rest ih =>
      intro st x log hh call hcall
      rw [drawSegments] at hcall
      rcases ih _ _ _ (fun s hs => hh s (List.mem_cons_of_mem _ hs)) call hcall with hc | hc
      · rcases List.mem_append.1 hc with hc | hc
        · exact Or.inl hc
        · rcases List.mem_singleton.1 hc with rfl
          rw [applyStyle_none st seg.style baseFontSize font (hh seg (List.mem_cons_self _ _))]
          exact Or.inr ⟨rfl, rfl⟩
      · exact Or.inr hc

theorem renderLine_state (μ : Measure) (options : PDFMarkdownOptions)
    (xStart justifyWidth : ℚ) (centerX rightX : ℚ → ℚ) (st : DocState) (currentY : ℚ)
    (lineSegments : List TextSegment) (isLast : Bool)
    (halign : options.align = none)
    (hh : ∀ seg ∈ lineSegments, seg.style.heading = none) :
    ∀ call ∈ (renderLine μ options xStart justifyWidth centerX rightX st currentY
        lineSegments isLast).2,
      call.state.fontSize = options.fontSize ∧ call.state.fontName = options.font := by
  intro call hcall
  rw [renderLine, halign] at hcall
  simp only [reduceCtorEq, if_false] at hcall
  rcases drawSegments_state μ options.fontSize options.font currentY lineSegments _ _ []
      hh call hcall with hc | hc
  · simp at hc
  · exact hc

theorem linesLoop_state (μ : Measure) (options : PDFMarkdownOptions)
    (xStart justifyWidth : ℚ) (centerX rightX : ℚ → ℚ) (maxY lineHeight : ℚ)
    (halign : options.align = none) :
    ∀ (lns : List (List TextSegment)) (lineIndex n : Nat) (st : DocState) (currentY : ℚ)
      (log : List DrawCall),
      (∀ L ∈ lns, ∀ s ∈ L, s.style.heading = none) →
      ∀ call ∈ (linesLoop μ options xStart justifyWidth centerX rightX maxY lineHeight
          lns lineIndex n st currentY log).2.2,
        call ∈ log ∨
          (call.state.fontSize = options.fontSize ∧ call.state.fontName = options.font) := by
  intro lns
  induction lns with
  | nil => intro i n st y log _ call hcall; rw [linesLoop] at hcall; exact Or.inl hcall
  | cons line rest ih =>
      intro i n st y log hh call hcall
      rw [linesLoop] at hcall
      have hline := hh line (List.mem_cons_self _ _)
      have hrest : ∀ L ∈ rest, ∀ s ∈ L, s.style.heading = none :=
        fun L hL => hh L (List.mem_cons_of_mem _ hL)
      split at hcall
      · exact ih _ _ _ _ _ hrest call hcall
      · rcases ih _ _ _ _ _ hrest call hcall with hc | hc
        · rcases List.mem_append.1 hc with hc | hc
          · exact Or.inl hc
          · exact Or.inr (renderLine_state μ options xStart justifyWidth centerX rightX
              st y line _ halign hline call hc)
        · exact Or.inr hc

set_option maxHeartbeats 1000000 in
/-- Claim C5, counterexample: processing `"# Title"` at base font size 10
with (default) left alignment produces a single draw call whose recorded
doc state has font size 10 and style `normal` — not the claimed heading
size `10 * (2.5 - 1*0.3) = 22` with bold weight.  (The heading size and
bold weight set before measuring are overridden per segment by
`applyStyle`, and the non-justify draw path re-applies styles with
`options.fontSize` as the base.) -/
theorem heading_drawn_at_base_size_counterexample :
    (parsePDFMarkdown mu10 1000 st0 "# Title".toList 0 0 opts8).2.2 =
      [⟨"Title".toList, 5 / 2, 10, ⟨"F".toList, "normal".toList, 10⟩⟩] ∧
    opts8.fontSize * (5 / 2 - (1 : ℚ) * (3 / 10)) = 22 ∧
    ¬((10 : ℚ) = 22 ∧ ("normal".toList : Str) = "bold".toList) := by
  refine ⟨?_, by norm_num [opts8], by intro h; exact absurd h.1 (by norm_num)⟩
  rw [parsePDFMarkdown]
  iterate 6
    (all_goals try simp [replaceDashes, collapseNewlines, collapseNLGo, splitOnChar, opts8,
        st0, mu10, processLines, calculateIndentation, listMarkerMatch, jsTrim, isJsWs,
        headerMatch, takeWhileStr, dropWhileStr, orderedListMatch, unorderedListMatch,
        parseInlineMarkdown, parseInlineLoop, defaultStyle, splitTextToLines, segmentsLoop,
        wordsLoop, jsSplitWs, splitWsGo, splitWsSkip, processWord, applyStyle, fontStyleOf,
        commitLine, partsLoop, splitWordIfNeeded, splitWordLoop, verifyLines, verifyMeasureLoop,
        rebuildLoop, rebuildParts, linesLoop, renderLine, renderJustifiedLine, fallbackLoop,
        justifiedMeasureLoop, justifiedDrawLoop, measureSegments, drawSegments, headingSize]
     all_goals try norm_num)

/-- Claim C5, amended: a heading line sets the doc to the heading size
`fontSize * (2.5 - level*0.3)` and bold before tokenizing and measuring,
but each segment's `applyStyle` overrides the weight with the segment's
own style, and the (non-justify) draw path re-applies styles with
`options.fontSize` as the base — so every draw call of the heading block
carries the BASE font size and the options font, and after the block the
doc state is restored to (options.font, normal, options.fontSize). -/
theorem heading_block_draw_and_restore (μ : Measure) (options : PDFMarkdownOptions)
    (x maxY lineHeight y : ℚ) (st : DocState) (rawLine : Str) (level : Nat) (content : Str)
    (halign : options.align = none)
    (hblank : jsTrim rawLine ≠ [])
    (hfit : ¬(y + lineHeight > maxY))
    (hmatch : headerMatch (jsTrim rawLine) = some (level, content)) :
    (∀ call ∈ (processLines μ options x maxY lineHeight [rawLine] st y []).2.2,
        call.state.fontSize = options.fontSize ∧ call.state.fontName = options.font) ∧
    (processLines μ options x maxY lineHeight [rawLine] st y []).2.1 =
      ⟨options.font, "normal".toList, options.fontSize⟩ := by
  rw [processLines]
  rw [if_neg hblank, if_neg hfit, hmatch]
  dsimp only []
  rw [if_neg hfit]
  rw [processLines]
  constructor
  · intro call hcall
    have hstyles : ∀ L ∈ (splitTextToLines μ
        { st with fontSize := options.fontSize * (5 / 2 - (level : ℚ) * (3 / 10)),
                  fontName := options.font, fontStyle := "bold".toList }
        (parseInlineMarkdown content) options.maxWidth (calculateIndentation rawLine)
        options.font).1, ∀ s ∈ L, s.style.heading = none := by
      refine splitTextToLines_styles (fun sty => sty.heading = none) μ _ _ _ _ _ ?_
      exact parseInlineMarkdown_heading_none content
    rcases linesLoop_state μ options _ _ _ _ maxY lineHeight halign _ 0 _ _ _ []
        hstyles call hcall with hc | hc
    · simp at hc
    · exact hc
  · rfl

/-- Witness for C5: the heading block `"# Title"` processed at base size
10, left alignment, far from the page bottom. -/
theorem heading_block_draw_and_restore_witness :
    opts8.align = none ∧ jsTrim "# Title".toList ≠ [] ∧ ¬((0 : ℚ) + 10 > 980) ∧
    headerMatch (jsTrim "# Title".toList) = some (1, "Title".toList) ∧
    ((∀ call ∈ (processLines mu10 opts8 0 980 10 ["# Title".toList] st0 0 []).2.2,
        call.state.fontSize = opts8.fontSize ∧ call.state.fontName = opts8.font) ∧
      (processLines mu10 opts8 0 980 10 ["# Title".toList] st0 0 []).2.1 =
        ⟨opts8.font, "normal".toList, opts8.fontSize⟩) :=
  ⟨rfl, by simp [jsTrim, dropWhileStr, isJsWs], by norm_num,
    by simp [jsTrim, dropWhileStr, takeWhileStr, isJsWs, headerMatch],
    heading_block_draw_and_restore mu10 opts8 0 980 10 0 st0 "# Title".toList 1 "Title".toList
      rfl (by simp [jsTrim, dropWhileStr, isJsWs]) (by norm_num)
      (by simp [jsTrim, dropWhileStr, takeWhileStr, isJsWs, headerMatch])⟩

/-! ### Width bound of splitTextToLines -/

theorem lineMeasure_nil (μ : Measure) (font : Str) (fontSize spaceWidth : ℚ) :
    lineMeasure μ font fontSize spaceWidth [] = 0 := rfl

theorem lineMeasure_append (μ : Measure) (font : Str) (fontSize spaceWidth : ℚ)
    (L : List TextSegment) (seg : TextSegment) :
    lineMeasure μ font fontSize spaceWidth (L ++ [seg]) =
      lineMeasure μ font fontSize spaceWidth L + segMeasure μ font fontSize spaceWidth seg := by
  simp [lineMeasure]

theorem lineMeasure_singleton (μ : Measure) (font : Str) (fontSize spaceWidth : ℚ)
    (seg : TextSegment) :
    lineMeasure μ font fontSize spaceWidth [seg] = segMeasure μ font fontSize spaceWidth seg := by
  simp [lineMeasure]

theorem segMeasure_gap (μ : Measure) (font : Str) (fontSize spaceWidth : ℚ)
    (style : TextStyle) :
    segMeasure μ font fontSize spaceWidth ⟨[' '], style⟩ = spaceWidth := by
  simp [segMeasure]

theorem segMeasure_nongap (μ : Measure) (font : Str) (fontSize spaceWidth : ℚ)
    (seg : TextSegment) (h : seg.text ≠ [' ']) :
    segMeasure μ font fontSize spaceWidth seg =
      μ (styleState font fontSize seg.style) seg.text := by
  simp [segMeasure, h]

theorem wsfree_ne_gap (t : Str) (h : ∀ c ∈ t, isJsWs c = false) : t ≠ [' '] := by
  intro ht
  subst ht
  have := h ' ' (List.mem_singleton.2 rfl)
  simp [isJsWs] at this

theorem commitLine_lines_ok (μ : Measure) (font : Str) (fontSize spaceWidth avail : ℚ)
    (acc : LineAcc) (hacc : accInv μ font fontSize spaceWidth avail acc) :
    ∀ L ∈ (commitLine acc).lines, lineOK μ font fontSize spaceWidth avail L := by
  rw [commitLine]
  split
  · rename_i hlen
    intro L hL
    rcases List.mem_append.1 hL with hL | hL
    · exact hacc.2.2.2.2 L hL
    · rcases List.mem_singleton.1 hL with rfl
      exact ⟨List.length_pos.mp hlen, hacc.2.2.1, hacc.2.2.2.1⟩
  · exact hacc.2.2.2.2

theorem partsLoop_pos (μ : Measure) (font : Str) (fontSize spaceWidth avail : ℚ)
    (style : TextStyle) (hsty : style.heading = none) :
    ∀ (parts : List TextSegment) (index : Nat) (acc : LineAcc),
      acc.st = styleState font fontSize style →
      (∀ L ∈ acc.lines, lineOK μ font fontSize spaceWidth avail L) →
      (∃ p, acc.currentLineSegments = [p] ∧ segOK p ∧ p.text ≠ [' ']) →
      acc.currentLineWidth = lineMeasure μ font fontSize spaceWidth acc.currentLineSegments →
      (∀ p ∈ parts, p.style = style ∧ ∀ c ∈ p.text, isJsWs c = false) →
      accInv μ font fontSize spaceWidth avail (partsLoop μ parts (index + 1) acc) := by
  intro parts
  induction parts with
  | nil =>
      intro index acc hst hlines hcls hclw _
      rw [partsLoop]
      obtain ⟨p0, hc, hpOK, hpne⟩ := hcls
      exact ⟨by rw [hst]; rfl, hclw,
        by rw [hc]; intro s hs; rcases List.mem_singleton.1 hs with rfl; exact hpOK,
        Or.inr ⟨p0, hc, hpne⟩, hlines⟩
  | cons p ps ih =>
      intro index acc hst hlines hcls hclw hparts
      obtain ⟨p0, hc, hpOK, hpne⟩ := hcls
      rw [partsLoop, if_pos (Nat.succ_pos index)]
      have hcommit : commitLine acc =
          ⟨acc.lines ++ [acc.currentLineSegments], [], 0, acc.st⟩ := by
        rw [commitLine, if_pos]
        rw [hc]; simp
      rw [hcommit]
      have hpstyle := (hparts p (List.mem_cons_self _ _)).1
      have hpws := (hparts p (List.mem_cons_self _ _)).2
      refine ih (index + 1) _ (by simpa using hst) ?_ ?_ ?_
        (fun q hq => hparts q (List.mem_cons_of_mem _ hq))
      · intro L hL
        rcases List.mem_append.1 hL with hL | hL
        · exact hlines L hL
        · rcases List.mem_singleton.1 hL with rfl
          rw [hc]
          exact ⟨by simp, by intro s hs; rcases List.mem_singleton.1 hs with rfl; exact hpOK,
            Or.inr ⟨p0, rfl, hpne⟩⟩
      · exact ⟨p, by simp, ⟨by rw [hpstyle]; exact hsty, Or.inr hpws⟩, wsfree_ne_gap _ hpws⟩
      · show μ acc.st p.text = lineMeasure μ font fontSize spaceWidth ([] ++ [p])
        rw [hst]
        simp only [List.nil_append, lineMeasure_singleton]
        rw [segMeasure_nongap μ font fontSize spaceWidth p (wsfree_ne_gap _ hpws), hpstyle]

theorem splitWordIfNeeded_st (μ : Measure) (st : DocState) (word : Str)
    (style : TextStyle) (w : ℚ) :
    (splitWordIfNeeded μ st word style w).2 =
      applyStyle st style st.fontSize st.fontName := by
  rw [splitWordIfNeeded]
  split <;> rfl

theorem processWord_inv (μ : Measure) (font : Str) (fontSize spaceWidth avail : ℚ)
    (style : TextStyle) (acc : LineAcc) (word : Str)
    (hacc : accInv μ font fontSize spaceWidth avail acc)
    (hsty : style.heading = none)
    (hword : ∀ c ∈ word, isJsWs c = false) :
    accInv μ font fontSize spaceWidth avail (processWord μ font avail spaceWidth style acc word) := by
  rw [processWord]
  dsimp only []
  split
  · exact hacc
  · rename_i hwne0
    have hwgap : word ≠ [' '] := wsfree_ne_gap _ hword
    have hst : applyStyle acc.st style acc.st.fontSize font = styleState font fontSize style := by
      rw [applyStyle_none _ _ _ _ hsty, hacc.1]; rfl
    have hsegOKw : segOK ⟨word, style⟩ := ⟨hsty, Or.inr hword⟩
    have hmw : μ (applyStyle acc.st style acc.st.fontSize font) word =
        segMeasure μ font fontSize spaceWidth ⟨word, style⟩ := by
      rw [hst, segMeasure_nongap μ font fontSize spaceWidth ⟨word, style⟩ hwgap]
    have hacc2 : accInv μ font fontSize spaceWidth avail
        { acc with st := applyStyle acc.st style acc.st.fontSize font } :=
      ⟨by rw [hst]; rfl, hacc.2.1, hacc.2.2.1, hacc.2.2.2.1, hacc.2.2.2.2⟩
    have hswstyle : ∀ f ∈ (splitWordIfNeeded μ (applyStyle acc.st style acc.st.fontSize font)
        word style avail).1, f.style = style :=
      splitWordIfNeeded_style (fun sty => sty = style) μ _ word style avail rfl
    have hswchars : ∀ f ∈ (splitWordIfNeeded μ (applyStyle acc.st style acc.st.fontSize font)
        word style avail).1, ∀ c ∈ f.text, isJsWs c = false :=
      splitWordIfNeeded_chars (fun c => isJsWs c = false) μ _ word style avail rfl hword
    have hswne : (splitWordIfNeeded μ (applyStyle acc.st style acc.st.fontSize font)
        word style avail).1 ≠ [] :=
      (splitWordIfNeeded_total μ _ word style avail hwne0).1
    have hswst : (splitWordIfNeeded μ (applyStyle acc.st style acc.st.fontSize font)
        word style avail).2 = styleState font fontSize style := by
      rw [splitWordIfNeeded_st, hst]
      show applyStyle _ style fontSize font = _
      rw [applyStyle_none _ _ _ _ hsty]
      rfl
    by_cases hgap : acc.currentLineSegments.length > 0 <;>
        simp only [hgap, if_true, if_false] <;> split
    · rename_i hfits
      refine ⟨by rw [hst]; rfl, ?_, ?_, ?_, hacc.2.2.2.2⟩
      · show acc.currentLineWidth + spaceWidth + _ = _
        rw [lineMeasure_append, lineMeasure_append, segMeasure_gap, hacc.2.1, hmw]
      · intro s hs
        rcases List.mem_append.1 hs with hs | hs
        · rcases List.mem_append.1 hs with hs2 | hs2
          · exact hacc.2.2.1 s hs2
          · rcases List.mem_singleton.1 hs2 with rfl; exact ⟨hsty, Or.inl rfl⟩
        · rcases List.mem_singleton.1 hs with rfl; exact hsegOKw
      · left
        rw [lineMeasure_append, lineMeasure_append, segMeasure_gap, ← hacc.2.1, ← hmw]
        exact hfits
    · split
      · refine ⟨by rw [commitLine_st]; exact hacc2.1, ?_, ?_, ?_, ?_⟩
        · show μ (applyStyle acc.st style acc.st.fontSize font) word = _
          rw [hmw, lineMeasure_singleton]
        · intro s hs; rcases List.mem_singleton.1 hs with rfl; exact hsegOKw
        · exact Or.inr ⟨⟨word, style⟩, rfl, hwgap⟩
        · exact commitLine_lines_ok μ font fontSize spaceWidth avail _ hacc2
      · have hcommit : commitLine { acc with st := applyStyle acc.st style acc.st.fontSize font } =
            ⟨acc.lines ++ [acc.currentLineSegments], [], 0,
              applyStyle acc.st style acc.st.fontSize font⟩ := by
          rw [commitLine, if_pos hgap]
        rw [hcommit]
        cases hp : (splitWordIfNeeded μ (applyStyle acc.st style acc.st.fontSize font)
            word style avail).1 with
        | nil => exact absurd hp hswne
        | cons p0 ps =>
            rw [partsLoop, if_neg (by omega)]
            have hp0 := hswstyle p0 (by rw [hp]; exact List.mem_cons_self _ _)
            have hp0c := hswchars p0 (by rw [hp]; exact List.mem_cons_self _ _)
            refine partsLoop_pos μ font fontSize spaceWidth avail style hsty ps 0 _ ?_ ?_ ?_ ?_ ?_
            · show (splitWordIfNeeded _ _ _ _ _).2 = _
              exact hswst
            · intro L hL
              rcases List.mem_append.1 hL with hL | hL
              · exact hacc.2.2.2.2 L hL
              · rcases List.mem_singleton.1 hL with rfl
                exact ⟨List.length_pos.mp hgap, hacc.2.2.1, hacc.2.2.2.1⟩
            · exact ⟨p0, by simp, ⟨by rw [hp0]; exact hsty, Or.inr hp0c⟩, wsfree_ne_gap _ hp0c⟩
            · show μ (splitWordIfNeeded _ _ _ _ _).2 p0.text = _
              rw [hswst]
              simp only [List.nil_append, lineMeasure_singleton]
              rw [segMeasure_nongap μ font fontSize spaceWidth p0 (wsfree_ne_gap _ hp0c), hp0]
            · intro q hq
              have hqm : q ∈ (splitWordIfNeeded μ (applyStyle acc.st style acc.st.fontSize font)
                  word style avail).1 := by rw [hp]; exact List.mem_cons_of_mem _ hq
              exact ⟨hswstyle q hqm, hswchars q hqm⟩
    · rename_i hfits
      refine ⟨by rw [hst]; rfl, ?_, ?_, ?_, hacc.2.2.2.2⟩
      · show acc.currentLineWidth + _ = _
        rw [lineMeasure_append, hacc.2.1, hmw]
      · intro s hs
        rcases List.mem_append.1 hs with hs | hs
        · exact hacc.2.2.1 s hs
        · rcases List.mem_singleton.1 hs with rfl; exact hsegOKw
      · left
        rw [lineMeasure_append, ← hacc.2.1, ← hmw]
        simpa using hfits
    · split
      · refine ⟨by rw [commitLine_st]; exact hacc2.1, ?_, ?_, ?_, ?_⟩
        · show μ (applyStyle acc.st style acc.st.fontSize font) word = _
          rw [hmw, lineMeasure_singleton]
        · intro s hs; rcases List.mem_singleton.1 hs with rfl; exact hsegOKw
        · exact Or.inr ⟨⟨word, style⟩, rfl, hwgap⟩
        · exact commitLine_lines_ok μ font fontSize spaceWidth avail _ hacc2
      · have hclsnil : acc.currentLineSegments = [] :=
          List.length_eq_zero.mp (by omega)
        cases hp : (splitWordIfNeeded μ (applyStyle acc.st style acc.st.fontSize font)
            word style avail).1 with
        | nil => exact absurd hp hswne
        | cons p0 ps =>
            rw [partsLoop, if_neg (by omega)]
            have hp0 := hswstyle p0 (by rw [hp]; exact List.mem_cons_self _ _)
            have hp0c := hswchars p0 (by rw [hp]; exact List.mem_cons_self _ _)
            refine partsLoop_pos μ font fontSize spaceWidth avail style hsty ps 0 _ ?_ ?_ ?_ ?_ ?_
            · show (splitWordIfNeeded _ _ _ _ _).2 = _
              exact hswst
            · exact hacc.2.2.2.2
            · refine ⟨p0, ?_, ⟨by rw [hp0]; exact hsty, Or.inr hp0c⟩, wsfree_ne_gap _ hp0c⟩
              simp [hclsnil]
            · show μ (splitWordIfNeeded _ _ _ _ _).2 p0.text = _
              rw [hswst, hclsnil]
              simp only [List.nil_append, lineMeasure_singleton]
              rw [segMeasure_nongap μ font fontSize spaceWidth p0 (wsfree_ne_gap _ hp0c), hp0]
            · intro q hq
              have hqm : q ∈ (splitWordIfNeeded μ (applyStyle acc.st style acc.st.fontSize font)
                  word style avail).1 := by rw [hp]; exact List.mem_cons_of_mem _ hq
              exact ⟨hswstyle q hqm, hswchars q hqm⟩

theorem wordsLoop_inv (μ : Measure) (font : Str) (fontSize spaceWidth avail : ℚ)
    (style : TextStyle) (hsty : style.heading = none) :
    ∀ (ws : List Str) (acc : LineAcc),
      (∀ w ∈ ws, ∀ c ∈ w, isJsWs c = false) →
      accInv μ font fontSize spaceWidth avail acc →
      accInv μ font fontSize spaceWidth avail
        (wordsLoop μ font avail spaceWidth style ws acc) := by
  intro ws
  induction ws with
  | nil => intro acc _ h; rw [wordsLoop]; exact h
  | cons w rest ih =>
      intro acc hws h
      rw [wordsLoop]
      refine ih _ (fun v hv => hws v (List.mem_cons_of_mem _ hv)) ?_
      exact processWord_inv μ font fontSize spaceWidth avail style acc w h hsty
        (hws w (List.mem_cons_self _ _))

theorem segmentsLoop_inv (μ : Measure) (font : Str) (fontSize spaceWidth avail : ℚ) :
    ∀ (segments : List TextSegment) (acc : LineAcc),
      (∀ seg ∈ segments, seg.style.heading = none) →
      accInv μ font fontSize spaceWidth avail acc →
      accInv μ font fontSize spaceWidth avail
        (segmentsLoop μ font avail spaceWidth segments acc) := by
  intro segments
  induction segments with
  | nil => intro acc _ h; rw [segmentsLoop]; exact h
  | cons seg rest ih =>
      intro acc hh h
      rw [segmentsLoop]
      refine ih _ (fun s hs => hh s (List.mem_cons_of_mem _ hs)) ?_
      refine wordsLoop_inv μ font fontSize spaceWidth avail seg.style
        (hh seg (List.mem_cons_self _ _)) _ acc ?_ h
      intro w hw
      exact jsSplitWs_ws_free seg.text w hw

theorem verifyMeasureLoop_spec (μ : Measure) (font : Str) :
    ∀ (line : List TextSegment) (st : DocState) (w : ℚ),
      (∀ seg ∈ line, seg.style.heading = none) →
      (verifyMeasureLoop μ font line st w).1 =
          w + (line.map (fun seg =>
            μ (styleState font st.fontSize seg.style) seg.text)).sum ∧
      (verifyMeasureLoop μ font line st w).2.fontSize = st.fontSize ∧
      ((verifyMeasureLoop μ font line st w).2.fontName = font ∨ line = []) := by
  intro line
  induction line with
  | nil => intro st w _; rw [verifyMeasureLoop]; exact ⟨by simp, rfl, Or.inr rfl⟩
  | cons seg rest ih =>
      intro st w hh
      rw [verifyMeasureLoop]
      rw [applyStyle_none st seg.style st.fontSize font (hh seg (List.mem_cons_self _ _))]
      obtain ⟨h1, h2, h3⟩ := ih ⟨font, fontStyleOf seg.style, st.fontSize⟩
        (w + μ ⟨font, fontStyleOf seg.style, st.fontSize⟩ seg.text)
        (fun s hs => hh s (List.mem_cons_of_mem _ hs))
      refine ⟨?_, by simpa using h2, ?_⟩
      · rw [h1]
        simp [styleState]
        ring
      · rcases h3 with h3 | h3
        · exact Or.inl h3
        · left
          rw [h3, verifyMeasureLoop]

theorem rebuildParts_inv (μ : Measure) (font : Str) (fontSize spaceWidth avail : ℚ)
    (st : DocState) :
    ∀ (parts : List TextSegment) (q : List TextSegment × ℚ),
      (∀ p ∈ parts, μ st p.text = segMeasure μ font fontSize spaceWidth p) →
      q.2 = lineMeasure μ font fontSize spaceWidth q.1 →
      q.2 ≤ avail →
      (rebuildParts μ avail st parts q).2 =
          lineMeasure μ font fontSize spaceWidth (rebuildParts μ avail st parts q).1 ∧
        (rebuildParts μ avail st parts q).2 ≤ avail := by
  intro parts
  induction parts with
  | nil => intro q _ h1 h2; rw [rebuildParts]; exact ⟨h1, h2⟩
  | cons p rest ih =>
      intro q hp h1 h2
      rw [rebuildParts]
      refine ih _ (fun r hr => hp r (List.mem_cons_of_mem _ hr)) ?_ ?_
      · split
        · show q.2 + μ st p.text = _
          rw [lineMeasure_append, ← h1, hp p (List.mem_cons_self _ _)]
        · exact h1
      · split
        · rename_i hle
          exact hle
        · exact h2

theorem rebuildLoop_inv (μ : Measure) (font : Str) (fontSize spaceWidth avail : ℚ) :
    ∀ (line newLine : List TextSegment) (cw : ℚ) (st : DocState),
      (∀ seg ∈ line, segOK seg) →
      cw = lineMeasure μ font fontSize spaceWidth newLine →
      cw ≤ avail →
      st.fontSize = fontSize → st.fontName = font →
      (rebuildLoop μ avail spaceWidth line newLine cw st).2.1 =
          lineMeasure μ font fontSize spaceWidth
            (rebuildLoop μ avail spaceWidth line newLine cw st).1 ∧
        (rebuildLoop μ avail spaceWidth line newLine cw st).2.1 ≤ avail ∧
        (rebuildLoop μ avail spaceWidth line newLine cw st).2.2.fontSize = fontSize ∧
        (rebuildLoop μ avail spaceWidth line newLine cw st).2.2.fontName = font := by
  intro line
  induction line with
  | nil => intro newLine cw st _ h1 h2 h3 h4; rw [rebuildLoop]; exact ⟨h1, h2, h3, h4⟩
  | cons seg rest ih =>
      intro newLine cw st hOK h1 h2 h3 h4
      have hsegOK := hOK seg (List.mem_cons_self _ _)
      have hrest : ∀ s ∈ rest, segOK s := fun s hs => hOK s (List.mem_cons_of_mem _ hs)
      rw [rebuildLoop]
      split
      · rename_i hgapseg
        split
        · rename_i hle
          refine ih _ _ _ hrest ?_ hle h3 h4
          rw [lineMeasure_append, ← h1]
          have : segMeasure μ font fontSize spaceWidth seg = spaceWidth := by
            simp [segMeasure, hgapseg]
          rw [this]
        · exact ih _ _ _ hrest h1 h2 h3 h4
      · rename_i hne
        have hws : ∀ c ∈ seg.text, isJsWs c = false := by
          rcases hsegOK.2 with h | h
          · exact absurd h hne
          · exact h
        have hpst : (splitWordIfNeeded μ st seg.text seg.style (avail - cw)).2 =
            styleState font fontSize seg.style := by
          rw [splitWordIfNeeded_st, h3, h4, applyStyle_none _ _ _ _ hsegOK.1]
          rfl
        have hpstyle : ∀ f ∈ (splitWordIfNeeded μ st seg.text seg.style (avail - cw)).1,
            f.style = seg.style :=
          splitWordIfNeeded_style (fun sty => sty = seg.style) μ st seg.text seg.style _ rfl
        have hpchars : ∀ f ∈ (splitWordIfNeeded μ st seg.text seg.style (avail - cw)).1,
            ∀ c ∈ f.text, isJsWs c = false :=
          splitWordIfNeeded_chars (fun c => isJsWs c = false) μ st seg.text seg.style _ rfl hws
        have hr := rebuildParts_inv μ font fontSize spaceWidth avail
          (splitWordIfNeeded μ st seg.text seg.style (avail - cw)).2
          (splitWordIfNeeded μ st seg.text seg.style (avail - cw)).1
          (newLine, cw) ?_ h1 h2
        · exact ih _ _ _ hrest hr.1 hr.2 (by rw [hpst]; rfl) (by rw [hpst]; rfl)
        · intro p hp
          rw [hpst, segMeasure_nongap μ font fontSize spaceWidth p
            (wsfree_ne_gap _ (hpchars p hp)), hpstyle p hp]

theorem verifyLines_inv (μ : Measure) (font : Str) (fontSize spaceWidth avail : ℚ)
    (h0 : 0 ≤ avail) :
    ∀ (lns : List (List TextSegment)) (st : DocState) (out : List (List TextSegment)),
      (∀ L ∈ lns, lineOK μ font fontSize spaceWidth avail L) →
      st.fontSize = fontSize →
      (∀ L ∈ out, lineMeasure μ font fontSize spaceWidth L ≤ avail) →
      ∀ L ∈ (verifyLines μ font avail spaceWidth lns st out).1,
        lineMeasure μ font fontSize spaceWidth L ≤ avail := by
  intro lns
  induction lns with
  | nil => intro st out _ _ hout; rw [verifyLines]; exact hout
  | cons line rest ih =>
      intro st out hOK hsz hout
      have hlOK := hOK line (List.mem_cons_self _ _)
      have hrest : ∀ L ∈ rest, lineOK μ font fontSize spaceWidth avail L :=
        fun L hL => hOK L (List.mem_cons_of_mem _ hL)
      have hheads : ∀ seg ∈ line, seg.style.heading = none :=
        fun s hs => (hlOK.2.1 s hs).1
      obtain ⟨hm1, hm2, hm3⟩ := verifyMeasureLoop_spec μ font line st 0 hheads
      have hm3' : (verifyMeasureLoop μ font line st 0).2.fontName = font := by
        rcases hm3 with h | h
        · exact h
        · exact absurd h hlOK.1
      rw [verifyLines]
      split
      · rename_i hover
        obtain ⟨hr1, hr2, hr3, hr4⟩ := rebuildLoop_inv μ font fontSize spaceWidth avail
          line [] 0 _ hlOK.2.1 (by rw [lineMeasure_nil]) h0 (by rw [hm2, hsz]) hm3'
        refine ih _ _ hrest (by rw [hr3]) ?_
        intro L hL
        rcases List.mem_append.1 hL with hL | hL
        · exact hout L hL
        · rcases List.mem_singleton.1 hL with rfl
          rw [← hr1]
          exact hr2
      · rename_i hover
        refine ih _ _ hrest (by rw [hm2, hsz]) ?_
        intro L hL
        rcases List.mem_append.1 hL with hL | hL
        · exact hout L hL
        · rcases List.mem_singleton.1 hL with rfl
          rcases hlOK.2.2 with hle | ⟨seg, rfl, hne⟩
          · exact hle
          · have : lineMeasure μ font fontSize spaceWidth [seg] =
                μ (styleState font fontSize seg.style) seg.text := by
              rw [lineMeasure_singleton, segMeasure_nongap μ font fontSize spaceWidth seg hne]
            rw [this]
            have hval : (verifyMeasureLoop μ font [seg] st 0).1 =
                μ (styleState font fontSize seg.style) seg.text := by
              rw [hm1]
              simp [hsz]
            rw [← hval]
            exact not_lt.mp hover

/-- Claim C1, counterexample: with per-character width 10, for the single
segment `"a"`, maxWidth 5, baseIndentation 1 and font size 10 the
available width is 5 - 1*10 = -5; the output is one EMPTY line (the
over-wide character is dropped by the verification pass), whose segment
width sum 0 exceeds the available width while containing no
forcibly-split fragment at all — so the claimed bound (with its only
exception being a line holding one over-wide forced fragment) fails. -/
theorem width_bound_counterexample :
    (splitTextToLines mu10 st0 [⟨"a".toList, defaultStyle⟩] 5 1 "F".toList).1 = [[]] ∧
    ¬ lineMeasure mu10 "F".toList st0.fontSize (mu10 st0 [' ']) [] ≤
        5 - 1 * st0.fontSize := by
  constructor
  · rw [splitTextToLines]
    norm_num [segmentsLoop, wordsLoop, jsSplitWs, splitWsGo, splitWsSkip, isJsWs, st0, mu10,
      processWord, applyStyle, fontStyleOf, defaultStyle, commitLine, partsLoop,
      splitWordIfNeeded, splitWordLoop, verifyLines, verifyMeasureLoop, rebuildLoop,
      rebuildParts]
  · rw [lineMeasure_nil]
    norm_num [st0]

/-- Claim C1, amended: provided the available width
`maxWidth - baseIndentation * fontSize` is non-negative and the segment
styles are tokenizer-produced (heading-free), EVERY line returned by
splitTextToLines satisfies the width bound — with no exception clause:
a single character wider than the available width is dropped by the
verification pass rather than emitted, so no over-wide line survives.
Gap markers are measured at the breaker's space width and the other
segments under their own styles. -/
theorem splitTextToLines_width_bound (μ : Measure) (st : DocState)
    (segments : List TextSegment) (maxWidth baseIndentation : ℚ) (font : Str)
    (hh : ∀ seg ∈ segments, seg.style.heading = none)
    (h0 : 0 ≤ maxWidth - baseIndentation * st.fontSize) :
    ∀ L ∈ (splitTextToLines μ st segments maxWidth baseIndentation font).1,
      lineMeasure μ font st.fontSize (μ st [' ']) L ≤
        maxWidth - baseIndentation * st.fontSize := by
  rw [splitTextToLines]
  have hinv := segmentsLoop_inv μ font st.fontSize (μ st [' '])
    (maxWidth - baseIndentation * st.fontSize) segments ⟨[], [], 0, st⟩ hh
    ⟨rfl, (lineMeasure_nil μ font st.fontSize (μ st [' '])).symm, by simp,
      Or.inl (by rw [lineMeasure_nil]; exact h0), by simp⟩
  have hlines : ∀ L ∈ (if (segmentsLoop μ font (maxWidth - baseIndentation * st.fontSize)
      (μ st [' ']) segments ⟨[], [], 0, st⟩).currentLineSegments.length > 0 then
        commitLine (segmentsLoop μ font (maxWidth - baseIndentation * st.fontSize)
          (μ st [' ']) segments ⟨[], [], 0, st⟩)
      else segmentsLoop μ font (maxWidth - baseIndentation * st.fontSize)
        (μ st [' ']) segments ⟨[], [], 0, st⟩).lines,
      lineOK μ font st.fontSize (μ st [' ']) (maxWidth - baseIndentation * st.fontSize) L := by
    split
    · exact commitLine_lines_ok μ font st.fontSize (μ st [' ']) _ _ hinv
    · exact hinv.2.2.2.2
  have hsz : (if (segmentsLoop μ font (maxWidth - baseIndentation * st.fontSize)
      (μ st [' ']) segments ⟨[], [], 0, st⟩).currentLineSegments.length > 0 then
        commitLine (segmentsLoop μ font (maxWidth - baseIndentation * st.fontSize)
          (μ st [' ']) segments ⟨[], [], 0, st⟩)
      else segmentsLoop μ font (maxWidth - baseIndentation * st.fontSize)
        (μ st [' ']) segments ⟨[], [], 0, st⟩).st.fontSize = st.fontSize := by
    split
    · rw [commitLine_st]; exact hinv.1
    · exact hinv.1
  exact verifyLines_inv μ font st.fontSize (μ st [' ']) _ h0 _ _ [] hlines hsz (by simp)

/-- Witness for C1: the single segment `"ab"` under a generous available
width. -/
theorem splitTextToLines_width_bound_witness :
    (∀ seg ∈ ([⟨"ab".toList, defaultStyle⟩] : List TextSegment),
        seg.style.heading = none) ∧
    ((0 : ℚ) ≤ 100 - 0 * st0.fontSize) ∧
    ∀ L ∈ (splitTextToLines mu10 st0 [⟨"ab".toList, defaultStyle⟩] 100 0 "F".toList).1,
      lineMeasure mu10 "F".toList st0.fontSize (mu10 st0 [' ']) L ≤
        100 - 0 * st0.fontSize :=
  ⟨by simp [defaultStyle], by norm_num [st0],
    splitTextToLines_width_bound mu10 st0 [⟨"ab".toList, defaultStyle⟩] 100 0 "F".toList
      (by simp [defaultStyle]) (by norm_num [st0])⟩
